import Mathlib

/-!
Verification of the QSP post-quantum threshold custody core.

This file shallowly embeds the cryptographic and protocol engine of the
QSP repository (`src/crypto_lattice/*.py`, `src/secret_sharing/*.py`,
`src/network/secure_channel.py`, `src/core/recovery_session.py`) into
Lean 4 and proves or refutes the specification's claims about it.

Machine integers are modelled as `Int`/`Nat` (Python integers are
arbitrary precision, so no wrap-around modelling is needed).  Hash
functions (`hashlib.sha256`, `hashlib.shake_256`) and `numpy` PRNG
sampling are external primitives; they enter the embedding as explicit
function parameters or as universally quantified data.

The repository files `src/crypto_lattice/utils.py` (class
`LatticeUtils`), `src/crypto_lattice/ntt.py` (`polymul_rq`),
`src/secret_sharing/scrambler.py` (`ArnoldScrambler`),
`src/secret_sharing/splitter.py` and `src/secret_sharing/moduli_gen.py`
are referenced by the sources but are not present in the snapshot;
definitions for them are modelled from the specification (§4.A, §4.F,
glossary) and are marked `Modelled from the spec:` in their doc
comments.
-/

namespace QSP


/-! ## Config (src/config.py) -/

/-- `Config.Q = 8380417`. -/
def Q : ℤ := 8380417

/-- `Config.N = 256`. -/
def Nn : ℕ := 256

/-- `Config.K = 2`. -/
def Kdim : ℕ := 2

/-- `Config.L = 2`. -/
def Ldim : ℕ := 2

/-- `Config.ETA = 2`. -/
def ETA : ℤ := 2

/-- `Config.BETA = 250`. -/
def BETA : ℤ := 250

/-- `Config.GAMMA2 = (Q - 1) // 8`. -/
def GAMMA2 : ℤ := (Q - 1) / 8

/-- `Config.GAMMA1 = (Q - 1) // 2`. -/
def GAMMA1 : ℤ := (Q - 1) / 2

/-- `Config.TAU = 39`. -/
def TAU : ℕ := 39

/-- `Config.T_THRESHOLD = 3`. -/
def T_THRESHOLD : ℕ := 3

/-- `Config.LARGE_PRIME_Q = 257`. -/
def LARGE_PRIME_Q : ℕ := 257

/-- `Config.MODULI = [257, 263, 269, 271, 277]`. -/
def MODULI : List ℕ := [257, 263, 269, 271, 277]

/-- A polynomial of `R_q`: a length-`N` coefficient vector, indexed by
`Fin Nn`, with unbounded integer coefficients (Python list of ints). -/
def Poly : Type := Fin Nn → ℤ

/-! ## Ring arithmetic

`LatticeUtils` (`src/crypto_lattice/utils.py`) and `polymul_rq`
(`src/crypto_lattice/ntt.py`) are imported by every crypto module but
the two files are absent from the snapshot, so the definitions below
are modelled from spec §4.A and the glossary. -/

/-- Modelled from the spec: `LatticeUtils.center_mod(c, q)` (§4.A),
mapping an integer to its representative of `c mod q` in
`[-q/2, q/2)`. -/
def center_mod (c q : ℤ) : ℤ :=
  if 2 * (c % q) ≥ q then c % q - q else c % q

/-- Modelled from the spec: `LatticeUtils.low_bits(c, α, q)` (§4.A,
glossary): the representative of `c mod α` in `(-α/2, α/2]`. -/
def low_bits (c a _q : ℤ) : ℤ :=
  if 2 * (c % a) > a then c % a - a else c % a

/-- Modelled from the spec: `LatticeUtils.high_bits(c, α, q)` (§4.A,
glossary): the quotient `(c - low_bits c) / α`, so that
`c = high_bits·α + low_bits`. -/
def high_bits (c a q : ℤ) : ℤ :=
  (c - low_bits c a q) / a

/-- Modelled from the spec: `LatticeUtils.poly_add(a, b, q)` (§4.A):
pointwise addition reduced into `[0, q)`. -/
def poly_add (a b : Poly) (q : ℤ) : Poly :=
  fun k => (a k + b k) % q

/-- Modelled from the spec: `LatticeUtils.poly_sub(a, b, q)` (§4.A):
pointwise subtraction reduced into `[0, q)`. -/
def poly_sub (a b : Poly) (q : ℤ) : Poly :=
  fun k => (a k - b k) % q

/-- The index of coefficient `i mod N` as a `Fin Nn`. -/
def idx (i : ℤ) : Fin Nn :=
  ⟨(i % (Nn : ℤ)).toNat, by
    have h0 : (0:ℤ) < (Nn : ℤ) := by decide
    have h1 : 0 ≤ i % (Nn : ℤ) := Int.emod_nonneg i (by decide)
    have h2 : i % (Nn : ℤ) < (Nn : ℤ) := Int.emod_lt_of_pos i h0
    omega⟩

/-- The anti-periodic extension of a coefficient vector to all of `ℤ`:
`ext a (i + N) = - ext a i`.  Multiplication modulo `X^N + 1` is
convolution of anti-periodic extensions. -/
def extPoly (a : Poly) : ℤ → ℤ :=
  fun i => if (i / (Nn : ℤ)) % 2 = 0 then a (idx i) else - a (idx i)

/-- `f` changes sign under translation by `N`. -/
def AntiPeriodic (f : ℤ → ℤ) : Prop :=
  ∀ i : ℤ, f (i + (Nn : ℤ)) = - f i

/-- One window of the convolution sum, starting at offset `s`. -/
def convW (f g : ℤ → ℤ) (s k : ℤ) : ℤ :=
  ∑ i ∈ Finset.range Nn, f (s + i) * g (k - s - i)

/-- Negacyclic convolution: the window starting at `0`. -/
def conv (f g : ℤ → ℤ) (k : ℤ) : ℤ :=
  ∑ i ∈ Finset.range Nn, f i * g (k - i)

/-- Modelled from the spec: `polymul_rq(a, b)` from
`src/crypto_lattice/ntt.py` (§4.A): multiplication in
`Z_q[X]/(X^N + 1)`, coefficients reduced into `[0, q)`. -/
def polymul_rq (a b : Poly) : Poly :=
  fun k => conv (extPoly a) (extPoly b) (k : ℤ) % Q

/-! ## Signer data (src/crypto_lattice/signer.py, keygen.py) -/

/-- Modelled from the spec: `LatticeUtils.vec_infinity_norm(v)`:
the maximum absolute coefficient over a vector of polynomials. -/
def vec_infinity_norm {m : ℕ} (v : Fin m → Poly) : ℕ :=
  Finset.univ.sup fun p : Fin m × Fin Nn => (v p.1 p.2).natAbs

instance : NeZero Kdim := ⟨by decide⟩

instance : NeZero Ldim := ⟨by decide⟩

instance : NeZero Nn := ⟨by decide⟩

/-- `_matrix_vec_mul` (shared by `ThresholdSigner`, `SignatureAggregator`
and `LatticeSigner` in src/crypto_lattice/signer.py): per output row,
the sum of `polymul_rq` products, accumulated without reduction.  The
loops over `range(K)`/`range(L)` are unrolled for the fixed
`K = L = 2` of `Config`. -/
def matrix_vec_mul (M : Fin Kdim → Fin Ldim → Poly) (v : Fin Ldim → Poly) :
    Fin Kdim → Poly :=
  fun i k => polymul_rq (M i 0) (v 0) k + polymul_rq (M i 1) (v 1) k

/-- `KeyGenerator.generate_party_key` (src/crypto_lattice/keygen.py):
the public vector `t = A·s1 + s2 mod q`, where each product is centered
before accumulation and the error is added modulo `q`. -/
def keygen_t (A : Fin Kdim → Fin Ldim → Poly) (s1 : Fin Ldim → Poly)
    (s2 : Fin Kdim → Poly) : Fin Kdim → Poly :=
  fun i k =>
    ((center_mod (polymul_rq (A i 0) (s1 0) k) Q
      + center_mod (polymul_rq (A i 1) (s1 1) k) Q) + s2 i k) % Q

/-- Modelled from the spec: `LatticeUtils.polymul(a, b, q, n)` (§4.A —
"schoolbook or NTT; either is acceptable so long as it implements
multiplication in `Z_q[X]/(X^N+1)`"); taken to be the same ring
multiplication as `polymul_rq`. -/
def polymul (a b : Poly) (_q : ℤ) : Poly := polymul_rq a b

/-- A single-party signature `(z, w, c_hash)` (src/crypto_lattice/signer.py,
`LatticeSigner.sign` return value). -/
structure Sig where
  z : Fin Ldim → Poly
  w : Fin Kdim → Poly
  c_hash : List ℕ

/-- One iteration of the rejection-sampling loop of `LatticeSigner.sign`
(src/crypto_lattice/signer.py lines 292-363) with the commitment `y`
made explicit and the external primitives (`hashlib.sha256` over the
message and the JSON encoding of `w`, and the PRNG-based
`_hash_to_poly`) passed as function parameters `shaFn`, `chalFn`.
Returns `none` on a rejection (the loop then retries with fresh `y`). -/
def sign_attempt (shaFn : List ℕ → (Fin Kdim → Poly) → List ℕ)
    (chalFn : List ℕ → Poly) (A : Fin Kdim → Fin Ldim → Poly)
    (s : Fin Ldim → Poly) (msg : List ℕ) (y : Fin Ldim → Poly) : Option Sig :=
  let Ay := matrix_vec_mul A y
  let w : Fin Kdim → Poly := fun i k => high_bits (Ay i k) (2 * GAMMA2) Q
  let c_hash := shaFn msg w
  let c := chalFn c_hash
  let cs : Fin Ldim → Poly := fun j => polymul_rq c (s j)
  let z : Fin Ldim → Poly := fun j k => (y j k + cs j k) % Q
  let centered_z : Fin Ldim → Poly := fun j k => center_mod (z j k) Q
  if (vec_infinity_norm centered_z : ℤ) ≥ GAMMA1 - BETA then none
  else some ⟨z, w, c_hash⟩

/-- The centered error matrix of `LatticeSigner.verify`
(src/crypto_lattice/signer.py lines 384-396): `Diff` as computed from
`V = (A·z - c·t) mod q`, `Expected = α·w` and the `np.where` centering. -/
def verify_diff (c : Poly) (A : Fin Kdim → Fin Ldim → Poly)
    (t : Fin Kdim → Poly) (sig : Sig) : Fin Kdim → Poly :=
  fun i k =>
    let V := (matrix_vec_mul A sig.z i k - polymul c (t i) Q k) % Q
    let Diff0 := (V - (2 * GAMMA2) * sig.w i k) % Q
    if Diff0 ≤ Q / 2 then Diff0 else Diff0 - Q

/-- `LatticeSigner.verify` (src/crypto_lattice/signer.py lines 365-409):
recompute the binding hash, recompute the challenge, and check
`||center(A·z - c·t - α·w)||_∞ < β + α/2 + 500`. -/
def verify (shaFn : List ℕ → (Fin Kdim → Poly) → List ℕ)
    (chalFn : List ℕ → Poly) (A : Fin Kdim → Fin Ldim → Poly)
    (t : Fin Kdim → Poly) (msg : List ℕ) (sig : Sig) : Bool :=
  let recomputed := shaFn msg sig.w
  if recomputed ≠ sig.c_hash then false
  else
    decide ((vec_infinity_norm (verify_diff (chalFn recomputed) A t sig) : ℤ)
      < BETA + (2 * GAMMA2) / 2 + 500)

/-! ## LWE KEM (src/crypto_lattice/encryptor.py) -/

/-- The bit expansion of one byte, most-significant bit first
(`f'{b:08b}'` in `_lwe_encrypt_key`). -/
def byteToBits (b : ℕ) : List ℕ :=
  [b / 128 % 2, b / 64 % 2, b / 32 % 2, b / 16 % 2,
   b / 8 % 2, b / 4 % 2, b / 2 % 2, b % 2]

/-- The bit string of a byte string (`''.join(f'{b:08b}' for b in key_bytes)`). -/
def bytesToBits (key : List ℕ) : List ℕ :=
  key.flatMap byteToBits

/-- Big-endian bit recombination (`int(bit_str, 2)`). -/
def bitsToByte (bs : List ℕ) : ℕ :=
  bs.foldl (fun acc b => 2 * acc + b) 0

/-- `int(bit_str, 2).to_bytes(32, 'big')`: the 256-bit string regrouped
into 32 big-endian bytes. -/
def bitsToBytes (bits : List ℕ) : List ℕ :=
  (List.range 32).map fun i => bitsToByte ((bits.drop (8 * i)).take 8)

/-- The message polynomial of `_lwe_encrypt_key`: coefficient `i` is
`Q // 2` when bit `i` of the key is set, else `0`. -/
def encode_key_poly (key : List ℕ) : Poly :=
  fun k => if (bytesToBits key).getD k 0 = 1 then Q / 2 else 0

/-- `_lwe_encrypt_key` (src/crypto_lattice/encryptor.py lines 75-112)
with the sampled randomness `r, e1, e2` explicit and the matrix `A`
(deterministically expanded from `pk['public_seed']`) passed directly.
The `range(K)` accumulation loops are unrolled for `K = L = 2`:
`u_j = A_{0j}·r_0 + A_{1j}·r_1 + e1_j`, `v = t_0·r_0 + t_1·r_1 + e2 + m`,
each step reduced by `poly_add`. -/
def lwe_encrypt_key (A : Fin Kdim → Fin Ldim → Poly) (t : Fin Kdim → Poly)
    (key : List ℕ) (r : Fin Kdim → Poly) (e1 : Fin Ldim → Poly) (e2 : Poly) :
    (Fin Ldim → Poly) × Poly :=
  let m_poly := encode_key_poly key
  let u : Fin Ldim → Poly := fun j =>
    poly_add (poly_add (poly_add (fun _ => 0) (polymul_rq (A 0 j) (r 0)) Q)
      (polymul_rq (A 1 j) (r 1)) Q) (e1 j) Q
  let v : Poly :=
    poly_add (poly_add (poly_add (poly_add (fun _ => 0)
      (polymul_rq (t 0) (r 0)) Q) (polymul_rq (t 1) (r 1)) Q) e2 Q) m_poly Q
  (u, v)

/-- `_lwe_decrypt_key` (src/crypto_lattice/encryptor.py lines 115-144):
`m' = v - s^T·u mod q`; bit `i` is `1` iff `Q//4 < m'_i < 3·Q//4`; the
leading 256 bits are repacked into 32 big-endian bytes. -/
def lwe_decrypt_key (s : Fin Ldim → Poly) (cu : (Fin Ldim → Poly) × Poly) :
    Option (List ℕ) :=
  let su : Poly := poly_add (poly_add (fun _ => 0)
    (polymul_rq (s 0) (cu.1 0)) Q) (polymul_rq (s 1) (cu.1 1)) Q
  let m_noisy := poly_sub cu.2 su Q
  let bits : Fin Nn → ℕ := fun k =>
    if Q / 4 < m_noisy k ∧ m_noisy k < 3 * Q / 4 then 1 else 0
  some (bitsToBytes (List.ofFn bits))

/-- The accumulated LWE noise of one encrypt/decrypt round:
`s2^T·r + e2 - s1^T·e1` (over the true ring values). -/
def kem_noise (s1 : Fin Ldim → Poly) (s2 : Fin Kdim → Poly)
    (r : Fin Kdim → Poly) (e1 : Fin Ldim → Poly) (e2 : Poly) : Fin Nn → ℤ :=
  fun k =>
    conv (extPoly (s2 0)) (extPoly (r 0)) (k : ℤ)
      + conv (extPoly (s2 1)) (extPoly (r 1)) (k : ℤ) + e2 k
      - (conv (extPoly (s1 0)) (extPoly (e1 0)) (k : ℤ)
        + conv (extPoly (s1 1)) (extPoly (e1 1)) (k : ℤ))

/-! ## Threshold challenge derivation
(`ThresholdSigner._derive_challenge` and
`SignatureAggregator.derive_challenge`, src/crypto_lattice/signer.py
lines 141-158 and 170-188; the two bodies are identical). -/

/-- `int(coeff).to_bytes(4, 'little', signed=True)`: the four
little-endian bytes of the 32-bit two's complement of `x`. -/
def encode_i32 (x : ℤ) : List ℕ :=
  let u := (x % 4294967296).toNat
  [u % 256, u / 256 % 256, u / 65536 % 256, u / 16777216 % 256]

/-- The concatenated coefficient encoding of `W_HighBits`. -/
def encode_W (W : List (List ℤ)) : List ℕ :=
  W.flatMap fun poly => poly.flatMap encode_i32

/-- `int(timestamp).to_bytes(8, 'little')`. -/
def ts8 (ts : ℕ) : List ℕ :=
  [ts % 256, ts / 256 % 256, ts / 65536 % 256, ts / 16777216 % 256,
   ts / 4294967296 % 256, ts / 1099511627776 % 256,
   ts / 281474976710656 % 256, ts / 72057594037927936 % 256]

/-- One iteration of the challenge placement loop: skip once `weight`
has reached `τ` (the loop `break`s there, and placements only grow the
weight, so skipping is equivalent), set slot `b mod N` to `±1` by the
parity of `b` when it is free. -/
def chalStep (st : List ℤ × ℕ) (b : ℕ) : List ℤ × ℕ :=
  if st.2 ≥ TAU then st
  else if st.1.getD (b % Nn) 0 = 0 then
    (st.1.set (b % Nn) (if b % 2 = 1 then 1 else -1), st.2 + 1)
  else st

/-- The placement loop of `_derive_challenge` over the digest bytes,
starting from the all-zero coefficient list. -/
def hash_to_challenge (digest : List ℕ) : List ℤ :=
  (digest.foldl chalStep (List.replicate Nn 0, 0)).1

/-- `derive_challenge(message, W_HighBits, timestamp)`: SHAKE-256 of
`message || encode(W) || ts8` to `N/2` bytes (the external hash is the
parameter `shake`), then the placement loop. -/
def derive_challenge (shake : List ℕ → ℕ → List ℕ) (message : List ℕ)
    (W_HighBits : List (List ℤ)) (timestamp : ℕ) : List ℤ :=
  hash_to_challenge
    (shake (message ++ encode_W W_HighBits ++ ts8 timestamp) (Nn / 2))

/-- The Hamming weight of a challenge: the number of nonzero slots. -/
def hamming_weight (c : List ℤ) : ℕ :=
  (Finset.univ.filter fun p : Fin Nn => c.getD p 0 ≠ 0).card

/-! ## ThresholdSigner (src/crypto_lattice/signer.py lines 16-158) -/

/-- The mutable state of a `ThresholdSigner`: the key share, the
expanded matrix `A`, and the commitment secret `y` kept between phase 1
and phase 2 (`None` when absent/consumed). -/
structure ThresholdSignerState where
  s1 : Fin Ldim → Poly
  s2 : Fin Kdim → Poly
  A : Fin Kdim → Fin Ldim → Poly
  y : Option (Fin Ldim → Poly)

/-- The `message_data` argument of `phase2_response`: either a
`(message, timestamp)` tuple or raw bytes with the timestamp packed in
the trailing 8 bytes. -/
inductive MessageData where
  | tuple (message : List ℕ) (timestamp : ℕ)
  | bytes (data : List ℕ)

/-- `int.from_bytes(bs, 'little')`. -/
def bytesToNatLE (bs : List ℕ) : ℕ :=
  bs.foldr (fun b acc => b + 256 * acc) 0

/-- The message parsing at the top of `phase2_response` (lines 63-74). -/
def parseMessageData (md : MessageData) : List ℕ × ℕ :=
  match md with
  | .tuple m t => (m, t)
  | .bytes d =>
    if d.length ≥ 8 then
      (d.take (d.length - 8), bytesToNatLE (d.drop (d.length - 8)))
    else (d, 0)

/-- A challenge list as a coefficient vector. -/
def listToPoly (l : List ℤ) : Poly :=
  fun k => l.getD k 0

/-- The `W_HighBits` rows as the list fed into `_derive_challenge`. -/
def rowsToList (w : Fin Kdim → Poly) : List (List ℤ) :=
  [List.ofFn (w 0), List.ofFn (w 1)]

/-- `ThresholdSigner.phase2_response` (src/crypto_lattice/signer.py
lines 53-126): the two guard `raise`s sit before the `try`, so they
leave the state untouched; the `finally: self.y = None` covers the
whole body, so every path through the body returns with `y` cleared.
A Python `return None` (rejection) is `.ok none`; a raise is `.error`.
The external SHAKE-256 enters as `shake`. -/
def phase2_response (shake : List ℕ → ℕ → List ℕ)
    (st : ThresholdSignerState) (md : MessageData)
    (W : Option (Fin Kdim → Poly)) :
    Except String (Option (Fin Ldim → Poly)) × ThresholdSignerState :=
  match st.y with
  | none =>
    (.error "Security Violation: Phase 1 not executed or y already consumed.", st)
  | some yv =>
    match W with
    | none => (.error "Security Risk: Must provide global_Ay_sum.", st)
    | some Wv =>
      let st' := { st with y := none }
      let message := (parseMessageData md).1
      let timestamp := (parseMessageData md).2
      let W_true : Fin Kdim → Poly := fun i k => high_bits (Wv i k) (2 * GAMMA2) Q
      let c_poly := listToPoly
        (derive_challenge shake message (rowsToList W_true) timestamp)
      let cs : Fin Ldim → Poly := fun j => polymul_rq c_poly (st.s1 j)
      let z_share : Fin Ldim → Poly := fun j => poly_add (yv j) (cs j) Q
      let centered_z : Fin Ldim → Poly := fun j k => center_mod (z_share j k) Q
      if (vec_infinity_norm centered_z : ℤ) ≥ GAMMA1 - BETA then (.ok none, st')
      else
        let Ay := matrix_vec_mul st.A yv
        let Ce : Fin Kdim → Poly := fun i => polymul_rq c_poly (st.s2 i)
        let R : Fin Kdim → Poly := fun i => poly_sub (Ay i) (Ce i) Q
        let lows : Fin Kdim → Poly := fun i k =>
          low_bits (center_mod (R i k) Q) (2 * GAMMA2) Q
        if (vec_infinity_norm lows : ℤ) ≥ GAMMA2 - BETA then (.ok none, st')
        else (.ok (some z_share), st')

/-! ### Secure channel (src/network/secure_channel.py) -/

/-- `SecureChannel.TIMESTAMP_TOLERANCE` (secure_channel.py line 21). -/
def TIMESTAMP_TOLERANCE : ℤ := 60

/-- `SecureChannel.AES_KEY_SIZE` (secure_channel.py line 19). -/
def AES_KEY_SIZE : ℕ := 32

/-- The mutable fields of `SecureChannel` (secure_channel.py lines 23-25):
`session_key` (None until established) and `peer_verified`. -/
structure SecureChannelState where
  session_key : Option (List ℕ)
  peer_verified : Bool
  deriving DecidableEq

/-- `SecureChannel.setup_participant_session_verified` (secure_channel.py
lines 61-96).  The pickle framing is elided: the packet's `payload` bytes,
the parsed `ts`, the signature, and the KEM ciphertext arrive as separate
arguments (the parse is injective serialization).  `verifier.verify` is the
embedded `verify`; `LatticeEncryptor._lwe_decrypt_key` is the embedded
`lwe_decrypt_key`; `int(time.time())` is the argument `now`.  Returns the
Python return value paired with the updated channel state; on every failing
path the state is returned unchanged (the source assigns `session_key` and
`peer_verified` only after all three checks pass). -/
def setup_participant_session_verified
    (shaFn : List ℕ → (Fin Kdim → Poly) → List ℕ) (chalFn : List ℕ → Poly)
    (A : Fin Kdim → Fin Ldim → Poly) (peer_t : Fin Kdim → Poly)
    (payload_bytes : List ℕ) (signature : Sig) (ts now : ℤ)
    (s : Fin Ldim → Poly) (kem : (Fin Ldim → Poly) × Poly)
    (st : SecureChannelState) : Bool × SecureChannelState :=
  if verify shaFn chalFn A peer_t payload_bytes signature = false then (false, st)
  else if TIMESTAMP_TOLERANCE < |now - ts| then (false, st)
  else
    match lwe_decrypt_key s kem with
    | none => (false, st)
    | some session_key =>
      if session_key = [] ∨ session_key.length ≠ AES_KEY_SIZE then (false, st)
      else (true, { session_key := some session_key, peer_verified := true })

/-! ### Signature aggregation (src/crypto_lattice/signer.py, SignatureAggregator)
and the Recovery Host session (src/core/recovery_session.py). -/

/-- `SignatureAggregator.aggregate_w_shares` (signer.py lines 189-203):
coefficient-wise raw sum of the commitments followed by centering mod `Q`;
`None` for an empty list. -/
def aggregate_w_shares (w_shares : List (Fin Kdim → Poly)) :
    Option (Fin Kdim → Poly) :=
  match w_shares with
  | [] => none
  | _ :: _ => some (fun i k => center_mod ((w_shares.map (fun w => w i k)).sum) Q)

/-- `SignatureAggregator.aggregate_responses` (signer.py lines 205-214):
coefficient-wise raw sum of the response shares; `None` for an empty list. -/
def aggregate_responses (z_shares : List (Fin Ldim → Poly)) :
    Option (Fin Ldim → Poly) :=
  match z_shares with
  | [] => none
  | _ :: _ => some (fun j k => (z_shares.map (fun z => z j k)).sum)

/-- `SignatureAggregator.verify_final_signature` (signer.py lines 216-267):
norm check on the centered aggregate, then the challenge-hash recomputation,
either from the supplied `W_sum` or (fallback) from `AZ - CT`. -/
def verify_final_signature (shake : List ℕ → ℕ → List ℕ)
    (Z : Fin Ldim → Poly) (C_poly : List ℤ) (T_pub : Fin Kdim → Poly)
    (A_matrix : Fin Kdim → Fin Ldim → Poly) (message : List ℕ)
    (timestamp : ℕ) (W_sum : Option (Fin Kdim → Poly)) : Bool :=
  let centered_Z : Fin Ldim → Poly := fun j k => center_mod (Z j k) Q
  if (vec_infinity_norm centered_Z : ℤ) ≥ GAMMA1 - BETA then false
  else
    match W_sum with
    | some Wv =>
      let W_prime : Fin Kdim → Poly := fun i k => high_bits (Wv i k) (2 * GAMMA2) Q
      if derive_challenge shake message (rowsToList W_prime) timestamp ≠ C_poly
      then false else true
    | none =>
      let AZ := matrix_vec_mul A_matrix Z
      let CT : Fin Kdim → Poly := fun i => polymul_rq (listToPoly C_poly) (T_pub i)
      let actual : Fin Kdim → Poly := fun i => poly_sub (AZ i) (CT i) Q
      let centered : Fin Kdim → Poly := fun i k => center_mod (actual i k) Q
      let W_prime : Fin Kdim → Poly := fun i k =>
        high_bits (centered i k) (2 * GAMMA2) Q
      if derive_challenge shake message (rowsToList W_prime) timestamp ≠ C_poly
      then false else true

/-- `SessionState` (recovery_session.py lines 128-133). -/
inductive SessionState where
  | IDLE
  | WAITING_COMMITMENTS
  | WAITING_RESPONSES
  | RECONSTRUCTING
  | FINISHED
  deriving DecidableEq

/-- A manifest registry entry, reduced to the one field
`_find_in_manifest` reads (`public_key_t`; entries lacking the key are
`none`).  The JSON `sort_keys` serialization compared in the source is
injective on this data, so value equality is compared directly. -/
structure ManifestEntry where
  public_key_t : Option (List (List ℤ))
  deriving DecidableEq

/-- One entry of `peers_data` (recovery_session.py): `create_invitation`
installs `{'verified': False}`; the other keys appear as the protocol
progresses, so each is an `Option`.  The share payload is opaque here
(an abstract token). -/
structure PeerData where
  verified : Bool
  pk_t : Option (List (List ℤ))
  manifest_entry : Option ManifestEntry
  addr : Option ℕ
  w : Option (Fin Kdim → Poly)
  z : Option (Fin Ldim → Poly)
  share : Option ℕ

instance : Inhabited PeerData := ⟨⟨false, none, none, none, none, none, none⟩⟩

/-- The mutable fields of `RecoveryHostSession` that `_handle_message`
and the phase-completion helpers read or write.  `peers_data` is a dict
keyed by consecutive channel indices (`idx = len(self.managers)` at
creation), hence a list; `my_commitment` is the commitment set by
`start_recovery`; `my_z` records the result of the host's own
`phase2_response` call. -/
structure HostState where
  state : SessionState
  peers : List PeerData
  target_manifest : Option (List ManifestEntry)
  target_file_hash : List ℕ
  my_signer : ThresholdSignerState
  my_commitment : Fin Kdim → Poly
  my_z : Except String (Option (Fin Ldim → Poly))

/-- The protocol messages the Host emits while handling one incoming
message: the handshake sent to a HELLO sender, and the
`BROAD_CHALLENGE` / `REQ_SHARE` broadcasts. -/
inductive ProtoMsg where
  | handshakeTo (addr : ℕ)
  | broadChallenge (m_hash : List ℕ) (ts : ℕ) (w_sum : Fin Kdim → Poly)
  | reqShare

/-- The inbound messages `_handle_message` dispatches on
(recovery_session.py lines 200-255), with payloads already
deserialized (the JSON round-trip is the identity on them). -/
inductive HostMsg where
  | hello (pk_t : List (List ℤ))
  | handshake
  | resCommitment (w : Fin Kdim → Poly)
  | resResponse (z : Fin Ldim → Poly)
  | resShare (share : ℕ)

/-- `RecoveryHostSession._find_in_manifest` (lines 260-269): a missing
or empty manifest (`if not self.target_manifest`) yields the lenient
dummy entry; otherwise the first entry owning a `public_key_t` equal to
the received `t` is returned. -/
def find_in_manifest (manifest : Option (List ManifestEntry))
    (pk_t : List (List ℤ)) : Option ManifestEntry :=
  match manifest with
  | none => some ⟨none⟩
  | some [] => some ⟨none⟩
  | some entries => entries.find? fun e => e.public_key_t = some pk_t

/-- `RecoveryHostSession._check_phase1_complete` (lines 271-290): if there
is at least one verified peer and every verified peer has a commitment,
aggregate `[my_commitment] + peer w's`, broadcast the challenge, move to
`WAITING_RESPONSES` and run the host's own `phase2_response` (its result is
recorded in `my_z`; a raise there is caught by the handler's `except` after
the state change already happened). -/
def check_phase1_complete (shake : List ℕ → ℕ → List ℕ) (now : ℕ)
    (h : HostState) : HostState × List ProtoMsg :=
  if h.peers.any (fun d => d.verified) = false then (h, [])
  else if (h.peers.all fun d => !d.verified || d.w.isSome) = false then (h, [])
  else
    let ws := (h.peers.filter fun d => d.verified).filterMap fun d => d.w
    match aggregate_w_shares (h.my_commitment :: ws) with
    | none => (h, [])
    | some wv =>
      let res := phase2_response shake h.my_signer
        (.bytes (h.target_file_hash ++ ts8 now)) (some wv)
      ({h with
          state := SessionState.WAITING_RESPONSES,
          my_signer := res.2,
          my_z := res.1},
       [ProtoMsg.broadChallenge h.target_file_hash now wv])

/-- `RecoveryHostSession._check_phase2_complete` (lines 292-299): once
every verified peer has a `z`, broadcast `REQ_SHARE` and move to
`RECONSTRUCTING`.  The aggregated signature is never verified on this
path (the log line claims it was). -/
def check_phase2_complete (h : HostState) : HostState × List ProtoMsg :=
  if h.peers.all fun d => !d.verified || d.z.isSome then
    ({h with state := SessionState.RECONSTRUCTING}, [ProtoMsg.reqShare])
  else (h, [])

/-- `RecoveryHostSession._check_phase3_complete` (lines 301-313): once
every verified peer has a share, attempt reconstruction (abstracted as
`reconstructFn`); success moves to `FINISHED`, an exception leaves the
state unchanged. -/
def check_phase3_complete (reconstructFn : List ℕ → Option ℕ)
    (h : HostState) : HostState × List ProtoMsg :=
  if h.peers.all fun d => !d.verified || d.share.isSome then
    let shares := (h.peers.filter fun d => d.verified).filterMap fun d => d.share
    match reconstructFn shares with
    | some _ => ({h with state := SessionState.FINISHED}, [])
    | none => (h, [])
  else (h, [])

/-- `RecoveryHostSession._handle_message` (lines 200-255).  A dict access
at an unknown `idx` raises `KeyError`, which the surrounding `except`
turns into a no-op, hence the `idx < length` guards; `HANDSHAKE` reads
`peers_data[idx]['pk']` through `in`, which is `False` at a fresh or
unknown peer.  Note the source consults `self.state` in none of the
branches. -/
def handle_message (shake : List ℕ → ℕ → List ℕ)
    (reconstructFn : List ℕ → Option ℕ) (now : ℕ) (h : HostState)
    (idx : ℕ) (msg : HostMsg) (addr : ℕ) : HostState × List ProtoMsg :=
  match msg with
  | .hello pk_t =>
    if idx < h.peers.length then
      match find_in_manifest h.target_manifest pk_t with
      | some entry =>
        let d := h.peers.getD idx default
        let d' := {d with
          pk_t := some pk_t,
          manifest_entry := some entry,
          addr := some addr}
        ({h with peers := h.peers.set idx d'}, [ProtoMsg.handshakeTo addr])
      | none => (h, [])
    else (h, [])
  | .handshake =>
    if (h.peers.getD idx default).pk_t.isSome then
      let d' := {h.peers.getD idx default with verified := true}
      ({h with peers := h.peers.set idx d'}, [])
    else (h, [])
  | .resCommitment w =>
    if (h.peers.getD idx default).verified then
      let d' := {h.peers.getD idx default with w := some w}
      check_phase1_complete shake now {h with peers := h.peers.set idx d'}
    else (h, [])
  | .resResponse z =>
    if idx < h.peers.length then
      let d' := {h.peers.getD idx default with z := some z}
      check_phase2_complete {h with peers := h.peers.set idx d'}
    else (h, [])
  | .resShare sh =>
    if idx < h.peers.length then
      let d' := {h.peers.getD idx default with share := some sh}
      check_phase3_complete reconstructFn {h with peers := h.peers.set idx d'}
    else (h, [])

/-- A trivial signer state for concrete host instances. -/
def zeroSigner : ThresholdSignerState :=
  ⟨fun _ => (fun _ => 0), fun _ => (fun _ => 0), fun _ _ => (fun _ => 0), none⟩

/-- A host in `WAITING_RESPONSES` whose single verified peer has
delivered a garbage response `z = γ1` on every coefficient. -/
def c1_host : HostState :=
  { state := SessionState.WAITING_RESPONSES,
    peers := [⟨true, none, none, none, none,
      some (fun _ => (fun _ => (GAMMA1 : ℤ))), none⟩],
    target_manifest := none, target_file_hash := [],
    my_signer := zeroSigner, my_commitment := fun _ => (fun _ => 0),
    my_z := .ok none }

/-- The aggregate `Z = Σ z_i` of the single garbage response above. -/
def c1_Z : Fin Ldim → Poly :=
  fun j k => ([fun _ => (fun _ => (GAMMA1 : ℤ))].map
    (fun z : Fin Ldim → Poly => z j k)).sum

/-- An idle host with one verified peer holding no phase data. -/
def c6_host : HostState :=
  { state := SessionState.IDLE,
    peers := [⟨true, none, none, none, none, none, none⟩],
    target_manifest := none, target_file_hash := [],
    my_signer := zeroSigner, my_commitment := fun _ => (fun _ => 0),
    my_z := .ok none }

/-- A host whose loaded manifest holds the single key `[[1]]`. -/
def c7_host : HostState :=
  { state := SessionState.IDLE,
    peers := [⟨false, none, none, none, none, none, none⟩],
    target_manifest := some [⟨some [[1]]⟩], target_file_hash := [],
    my_signer := zeroSigner, my_commitment := fun _ => (fun _ => 0),
    my_z := .ok none }

/-! ### CRT image secret sharing (src/secret_sharing/reconstructor.py;
the splitter and the Arnold scrambler are absent from src and are
modelled from spec §4.F). -/

/-- `ImageCRTReconstructor._egcd` (reconstructor.py lines 25-31):
`_egcd(a, b)` returns `(g, x, y)`; the recursive call unpacks as
`g, y, x = _egcd(b % a, a)` and returns `(g, x - (b // a) * y, y)`.
Python `%` and `//` agree with `Int.emod`/`Int.ediv` at the positive
divisors this program uses (both floor for positive divisors). -/
def egcd (a b : ℤ) : ℤ × ℤ × ℤ :=
  if ha : a = 0 then (b, 0, 1)
  else
    let r := egcd (b % a) a
    (r.1, r.2.2 - b / a * r.2.1, r.2.1)
termination_by a.natAbs
decreasing_by
  have h1 : 0 ≤ b % a := Int.emod_nonneg b ha
  have h2 : b % a < (a.natAbs : ℤ) := by
    have : b % a = b % (a.natAbs : ℤ) := by
      rcases Int.natAbs_eq a with h | h
      · rw [← h]
      · conv_lhs => rw [h, Int.emod_neg]
    rw [this]
    exact Int.emod_lt_of_pos b (by exact_mod_cast Int.natAbs_pos.mpr ha)
  omega

/-- `ImageCRTReconstructor._modinv` (reconstructor.py lines 33-39):
raises when the gcd is not 1, else returns `x % m`. -/
def modinv (a m : ℤ) : Except String ℤ :=
  if (egcd a m).1 ≠ 1 then .error "Modular inverse does not exist"
  else .ok ((egcd a m).2.1 % m)

/-- One share dictionary as consumed by `reconstruct_from_memory`
(keys `modulus`, `data` as a flat array, `shape = (h, w, c)`,
`original_shape = (h0, w0)`). -/
structure Share where
  modulus : ℤ
  data : List ℤ
  shape : ℕ × ℕ × ℕ
  original_shape : ℕ × ℕ

instance : Inhabited Share := ⟨⟨0, [], (0, 0, 0), (0, 0)⟩⟩

/-- `data.astype(np.int64)`: wrap into the signed 64-bit range. -/
def int64_cast (z : ℤ) : ℤ :=
  (z + 2 ^ 63) % 2 ^ 64 - 2 ^ 63

/-- The weight loop of `reconstruct_from_memory` (lines 113-118):
`M_i = M // m_i`, `inv = _modinv(M_i, m_i)`, weight `M_i * inv`;
the first failing `_modinv` raises. -/
def crt_weights : List ℤ → ℤ → Except String (List ℤ)
  | [], _ => .ok []
  | m :: ms, M =>
    match modinv (M / m) m with
    | .error e => .error e
    | .ok inv =>
      match crt_weights ms M with
      | .error e => .error e
      | .ok ws => .ok (M / m * inv :: ws)

/-- The data-preparation loop of `reconstruct_from_memory`
(lines 121-132): cast each share's data to int64 and raise on any
coordinate `>= modulus` (the tamper check). -/
def check_shares : List Share → Except String (List (List ℤ))
  | [] => .ok []
  | s :: rest =>
    let data64 := s.data.map int64_cast
    if data64.any (fun v => decide (s.modulus ≤ v)) then
      .error "Security Alert: share contains values larger than modulus."
    else
      match check_shares rest with
      | .error e => .error e
      | .ok ys => .ok (data64 :: ys)

/-- An image as a total pixel function; rows/columns/channel indexed by
integers (the programs only read indices inside `[0,s) x [0,s) x [0,3)`;
out-of-range reads are defined through the canonical representatives,
matching numpy at every in-range index). -/
abbrev Img := ℤ → ℤ → ℤ → ℕ

/-- Modelled from the spec (§4.F, glossary "Arnold scramble"): one
application of the Arnold cat map `(x, y) ↦ (x + y, x + 2y) mod s` on a
square side `s`. -/
def arnoldT (s : ℤ) (p : ℤ × ℤ) : ℤ × ℤ :=
  ((p.1 + p.2) % s, (p.1 + 2 * p.2) % s)

/-- Modelled from the spec: the inverse cat map
`(x, y) ↦ (2x - y, y - x) mod s`. -/
def arnoldTinv (s : ℤ) (p : ℤ × ℤ) : ℤ × ℤ :=
  ((2 * p.1 - p.2) % s, (p.2 - p.1) % s)

/-- Modelled from the spec: one scrambling pass, writing pixel `p` of
the source at position `T p` (so the scrambled image reads the source
at `T⁻¹`). -/
def scrambleOnce (s : ℤ) (P : Img) : Img :=
  fun x y ch => P (arnoldTinv s (x, y)).1 (arnoldTinv s (x, y)).2 ch

/-- Modelled from the spec: one unscrambling pass. -/
def unscrambleOnce (s : ℤ) (P : Img) : Img :=
  fun x y ch => P (arnoldT s (x, y)).1 (arnoldT s (x, y)).2 ch

/-- `ArnoldScrambler(iterations=10).scramble`. -/
def arnold_scramble (s : ℤ) (P : Img) : Img :=
  (scrambleOnce s)^[10] P

/-- `ArnoldScrambler(iterations=10).unscramble`. -/
def arnold_unscramble (s : ℤ) (P : Img) : Img :=
  (unscrambleOnce s)^[10] P

/-- `numpy.reshape(h, w, c)` of a flat list, as a pixel function
(row-major: flat index `(x*w + y)*c + ch`). -/
def reshape3 (h w c : ℤ) (l : List ℕ) : Img :=
  fun x y ch => l.getD ((x % h * w + y % w) * c + ch % c).toNat 0

/-- Row-major flattening of the `h x w x 3` window of an image. -/
def flattenImg (h w : ℕ) (P : Img) : List ℕ :=
  (List.range (h * w * 3)).map fun j =>
    P ((j / 3 / w : ℕ) : ℤ) ((j / 3 % w : ℕ) : ℤ) ((j % 3 : ℕ) : ℤ)

/-- An image that only depends on the canonical representatives of its
indices (true of every image read back from a flat buffer). -/
def cPeriodic (s : ℤ) (P : Img) : Prop :=
  ∀ x y ch, P (x % s) (y % s) (ch % 3) = P x y ch

/-- Modelled from the spec (§4.F Split): scramble the padded square
image, take each pixel's residue `x mod m_i` as share data, and attach
the metadata. -/
def split_share (s : ℤ) (h w : ℕ) (origShape : ℕ × ℕ) (P : Img)
    (m : ℤ) : Share :=
  { modulus := m,
    data := (flattenImg h w (arnold_scramble s P)).map (fun p : ℕ => (p : ℤ) % m),
    shape := (h, w, 3),
    original_shape := origShape }

/-- `ImageCRTReconstructor.reconstruct_from_memory` (reconstructor.py
lines 86-152): threshold check against the hard-coded
`Config.T_THRESHOLD`, selection of the first `t` shares, CRT weights,
int64 cast + tamper check, the vectorised weighted sum mod `M`, pixel
extraction `(Y mod q) astype uint8` (`= mod 257 then mod 256`), reshape
to `shape`, inverse Arnold scramble, and the crop to `original_shape`.
The metadata-presence check of lines 106-107 always passes here because
the fields are total. -/
def reconstruct_from_memory (shares_list : List Share) :
    Except String (List ℕ) :=
  if shares_list.length < T_THRESHOLD then
    .error "Insufficient shares. Need 3"
  else
    let selected := shares_list.take T_THRESHOLD
    let original_shape := (selected.headD default).original_shape
    let share_shape := (selected.headD default).shape
    let active_moduli := selected.map fun s => s.modulus
    let M := active_moduli.prod
    match crt_weights active_moduli M with
    | .error e => .error e
    | .ok ws =>
      match check_shares selected with
      | .error e => .error e
      | .ok ys =>
        let npix := share_shape.1 * share_shape.2.1 * share_shape.2.2
        let Svec := (List.range npix).map fun j =>
          ((((ys.zip ws).map fun p => p.1.getD j 0 * p.2).sum % M
            % (LARGE_PRIME_Q : ℤ)).toNat % 256)
        let img := reshape3 (share_shape.1 : ℤ) (share_shape.2.1 : ℤ)
          (share_shape.2.2 : ℤ) Svec
        let out := arnold_unscramble (share_shape.1 : ℤ) img
        .ok (flattenImg original_shape.1 original_shape.2 out)

/-- The three-share input of C10: all coordinates are below the
moduli, but the first share carries a negative coordinate `-5` (the
CRT solution of the congruences is `M - 5 = 18181974`). -/
def c10_shares : List Share :=
  [⟨257, [-5, 0, 0], (1, 1, 3), (1, 1)⟩,
   ⟨263, [258, 0, 0], (1, 1, 3), (1, 1)⟩,
   ⟨269, [264, 0, 0], (1, 1, 3), (1, 1)⟩]

/-! ## Theorems -/

theorem extPoly_antiperiodic (a : Poly) : AntiPeriodic (extPoly a) := by
  intro i
  have hmod : (i + (Nn : ℤ)) % (Nn : ℤ) = i % (Nn : ℤ) := by
    show (i + (256 : ℤ)) % (256 : ℤ) = i % (256 : ℤ)
    omega
  have hidx : idx (i + (Nn : ℤ)) = idx i := by
    unfold idx
    exact Fin.ext (by simp only [hmod])
  unfold extPoly
  rw [hidx]
  have hdiv : (i + (Nn : ℤ)) / (Nn : ℤ) = i / (Nn : ℤ) + 1 := by
    show (i + (256 : ℤ)) / (256 : ℤ) = i / (256 : ℤ) + 1
    omega
  rw [hdiv]
  rcases Int.emod_two_eq_zero_or_one (i / (Nn : ℤ)) with h | h
  · have h1 : (i / (Nn : ℤ) + 1) % 2 = 1 := by omega
    simp [h, h1]
  · have h1 : (i / (Nn : ℤ) + 1) % 2 = 0 := by omega
    simp [h, h1]

theorem extPoly_coe (a : Poly) (j : Fin Nn) : extPoly a (j : ℤ) = a j := by
  unfold extPoly
  have hj : ((j : ℤ) / (Nn : ℤ)) = 0 := by
    apply Int.ediv_eq_zero_of_lt
    · exact_mod_cast Nat.zero_le j.val
    · exact_mod_cast j.isLt
  have hidx : idx (j : ℤ) = j := by
    unfold idx
    apply Fin.ext
    simp only
    have : (j : ℤ) % (Nn : ℤ) = (j : ℤ) := Int.emod_eq_of_lt (by exact_mod_cast Nat.zero_le j.val) (by exact_mod_cast j.isLt)
    omega
  simp [hj, hidx]

theorem conv_eq_convW_zero (f g : ℤ → ℤ) (k : ℤ) : conv f g k = convW f g 0 k := by
  unfold conv convW
  refine Finset.sum_congr rfl fun i _ => by
    rw [zero_add, sub_zero]

theorem convW_succ (f g : ℤ → ℤ) (hf : AntiPeriodic f) (hg : AntiPeriodic g)
    (s k : ℤ) : convW f g (s + 1) k = convW f g s k := by
  have key : ∀ F G : ℕ → ℤ, (∀ i : ℕ, G i = F (i + 1)) → G 255 = F 0 →
      ∑ i ∈ Finset.range 256, G i = ∑ i ∈ Finset.range 256, F i := by
    intro F G hGF hwrap
    rw [show (256 : ℕ) = 255 + 1 from rfl, Finset.sum_range_succ G 255,
      Finset.sum_range_succ' F 255]
    rw [hwrap]
    refine congrArg (· + F 0) ?_
    exact Finset.sum_congr rfl fun i _ => hGF i
  show ∑ i ∈ Finset.range Nn, f (s + 1 + (i : ℕ)) * g (k - (s + 1) - (i : ℕ)) =
    ∑ i ∈ Finset.range Nn, f (s + (i : ℕ)) * g (k - s - (i : ℕ))
  refine key _ _ (fun i => ?_) ?_
  · rw [show s + 1 + (i : ℕ) = s + ((i + 1 : ℕ) : ℤ) by push_cast; ring,
      show k - (s + 1) - (i : ℕ) = k - s - ((i + 1 : ℕ) : ℤ) by push_cast; ring]
  · have h1 : f (s + ((255 : ℕ) : ℤ) + 1) = - f s := by
      have := hf s
      rw [show s + ((255:ℕ):ℤ) + 1 = s + (Nn : ℤ) by simp only [Nn]; push_cast; ring]
      exact this
    have h2 : g (k - s - ((255 : ℕ) : ℤ) - 1) = - g (k - s) := by
      have := hg (k - s - (Nn : ℤ))
      rw [show k - s - (Nn:ℤ) + (Nn:ℤ) = k - s by ring] at this
      rw [show k - s - ((255:ℕ):ℤ) - 1 = k - s - (Nn : ℤ) by simp only [Nn]; push_cast; ring]
      omega
    rw [show s + 1 + ((255 : ℕ) : ℤ) = s + ((255:ℕ):ℤ) + 1 by ring,
      show k - (s + 1) - ((255:ℕ):ℤ) = k - s - ((255:ℕ):ℤ) - 1 by ring,
      h1, h2]
    rw [show s + ((0:ℕ):ℤ) = s by norm_num, show k - s - ((0:ℕ):ℤ) = k - s by norm_num]
    ring

theorem convW_pred (f g : ℤ → ℤ) (hf : AntiPeriodic f) (hg : AntiPeriodic g)
    (s k : ℤ) : convW f g (s - 1) k = convW f g s k := by
  have := convW_succ f g hf hg (s - 1) k
  simpa using this.symm

theorem convW_eq_conv (f g : ℤ → ℤ) (hf : AntiPeriodic f) (hg : AntiPeriodic g)
    (s k : ℤ) : convW f g s k = conv f g k := by
  rw [conv_eq_convW_zero]
  induction s using Int.induction_on with
  | hz => rfl
  | hp n ih => rw [convW_succ f g hf hg _ k]; exact ih
  | hn n ih => rw [convW_pred f g hf hg _ k]; exact ih

theorem conv_antiperiodic (f g : ℤ → ℤ) (hg : AntiPeriodic g) :
    AntiPeriodic (conv f g) := by
  intro i
  unfold conv
  rw [← Finset.sum_neg_distrib]
  refine Finset.sum_congr rfl fun j _ => ?_
  have : i + (Nn : ℤ) - j = (i - j) + (Nn : ℤ) := by ring
  rw [this, hg (i - j)]
  ring

theorem conv_comm (f g : ℤ → ℤ) (hf : AntiPeriodic f) (hg : AntiPeriodic g)
    (k : ℤ) : conv f g k = conv g f k := by
  rw [← convW_eq_conv g f hg hf (k - (Nn : ℤ) + 1) k]
  unfold conv convW
  rw [← Finset.sum_range_reflect]
  refine Finset.sum_congr rfl fun i hi => ?_
  have hi' : i < Nn := Finset.mem_range.mp hi
  have h1 : ((Nn - 1 - i : ℕ) : ℤ) = (Nn : ℤ) - 1 - i := by
    push_cast [Nat.cast_sub (by omega : i ≤ Nn - 1), Nat.cast_sub (by decide : 1 ≤ Nn)]
    ring
  rw [h1]
  rw [show k - ((Nn:ℤ) - 1 - (i:ℕ)) = k - (Nn:ℤ) + 1 + (i:ℕ) by ring]
  rw [show k - (k - (Nn:ℤ) + 1) - (i:ℕ) = (Nn:ℤ) - 1 - (i:ℕ) by ring]
  ring

theorem conv_window_shift (g h : ℤ → ℤ) (hg : AntiPeriodic g)
    (hh : AntiPeriodic h) (i k : ℤ) :
    ∑ j ∈ Finset.range Nn, g ((j : ℕ) - i) * h (k - (j : ℕ)) = conv g h (k - i) := by
  rw [← convW_eq_conv g h hg hh (-i) (k - i)]
  unfold convW
  refine Finset.sum_congr rfl fun j _ => ?_
  rw [show (-i) + (j:ℕ) = (j:ℕ) - i by ring,
    show k - i - (-i) - (j:ℕ) = k - (j:ℕ) by ring]

theorem conv_assoc (f g h : ℤ → ℤ) (_hf : AntiPeriodic f) (hg : AntiPeriodic g)
    (hh : AntiPeriodic h) (k : ℤ) :
    conv (conv f g) h k = conv f (conv g h) k := by
  unfold conv
  have lhs_eq : ∑ j ∈ Finset.range Nn,
      (∑ i ∈ Finset.range Nn, f (i : ℕ) * g ((j : ℕ) - (i : ℕ))) * h (k - (j : ℕ)) =
      ∑ i ∈ Finset.range Nn, ∑ j ∈ Finset.range Nn,
        f (i : ℕ) * (g ((j : ℕ) - (i : ℕ)) * h (k - (j : ℕ))) := by
    rw [Finset.sum_comm]
    refine Finset.sum_congr rfl fun j _ => ?_
    rw [Finset.sum_mul]
    refine Finset.sum_congr rfl fun i _ => by ring
  rw [lhs_eq]
  refine Finset.sum_congr rfl fun i _ => ?_
  rw [← Finset.mul_sum]
  refine congrArg (f (i:ℕ) * ·) ?_
  have := conv_window_shift g h hg hh (i : ℕ) k
  rw [this]
  unfold conv
  rfl

theorem conv_add_right (f g g' : ℤ → ℤ) (k : ℤ) :
    conv f (fun i => g i + g' i) k = conv f g k + conv f g' k := by
  unfold conv
  rw [← Finset.sum_add_distrib]
  refine Finset.sum_congr rfl fun i _ => by ring

theorem conv_sub_right (f g g' : ℤ → ℤ) (k : ℤ) :
    conv f (fun i => g i - g' i) k = conv f g k - conv f g' k := by
  unfold conv
  rw [← Finset.sum_sub_distrib]
  refine Finset.sum_congr rfl fun i _ => by ring

/-- Sums preserve congruences. -/
theorem sum_modEq {s : Finset ℕ} (f g : ℕ → ℤ) (n : ℤ)
    (h : ∀ i ∈ s, f i ≡ g i [ZMOD n]) :
    (∑ i ∈ s, f i) ≡ (∑ i ∈ s, g i) [ZMOD n] := by
  classical
  induction s using Finset.induction_on with
  | empty => simp [Int.ModEq.refl]
  | insert hx ih =>
    rename_i a s'
    rw [Finset.sum_insert hx, Finset.sum_insert hx]
    exact Int.ModEq.add (h a (Finset.mem_insert_self a s'))
      (ih fun i hi => h i (Finset.mem_insert_of_mem hi))

theorem conv_modEq_right (f g g' : ℤ → ℤ) (n k : ℤ)
    (h : ∀ i : ℤ, g i ≡ g' i [ZMOD n]) :
    conv f g k ≡ conv f g' k [ZMOD n] := by
  unfold conv
  exact sum_modEq _ _ n fun i _ => Int.ModEq.mul_left (f i) (h (k - i))

theorem conv_modEq_left (f f' g : ℤ → ℤ) (n k : ℤ)
    (h : ∀ i : ℤ, f i ≡ f' i [ZMOD n]) :
    conv f g k ≡ conv f' g k [ZMOD n] := by
  unfold conv
  exact sum_modEq _ _ n fun i _ => Int.ModEq.mul_right _ (h (i : ℤ))

/-- Coefficient-size bound on a convolution. -/
theorem abs_conv_le (f g : ℤ → ℤ) (B C : ℤ)
    (hB : ∀ i : ℤ, |f i| ≤ B) (hC : ∀ i : ℤ, |g i| ≤ C)
    (_hC0 : 0 ≤ C) (k : ℤ) :
    |conv f g k| ≤ (Nn : ℤ) * (B * C) := by
  unfold conv
  calc |∑ i ∈ Finset.range Nn, f i * g (k - i)|
      ≤ ∑ i ∈ Finset.range Nn, |f i * g (k - i)| := Finset.abs_sum_le_sum_abs _ _
    _ ≤ ∑ _i ∈ Finset.range Nn, B * C := by
        refine Finset.sum_le_sum fun i _ => ?_
        rw [abs_mul]
        exact mul_le_mul (hB i) (hC (k - i)) (abs_nonneg _) (le_trans (abs_nonneg _) (hB 0))
    _ = (Nn : ℤ) * (B * C) := by
        rw [Finset.sum_const, Finset.card_range]
        rw [nsmul_eq_mul]

/-- Weight-limited bound: if `f` is supported (within a window) on at
most `τ` positions with values in `{-1,0,1}` and `|g| ≤ C` everywhere,
the convolution is bounded by `τ·C`. -/
theorem abs_conv_le_of_weight (f g : ℤ → ℤ) (W : ℕ) (C : ℤ)
    (hW : (∑ i ∈ Finset.range Nn, |f i|) ≤ (W : ℤ))
    (hC : ∀ i : ℤ, |g i| ≤ C) (hC0 : 0 ≤ C) (k : ℤ) :
    |conv f g k| ≤ (W : ℤ) * C := by
  unfold conv
  calc |∑ i ∈ Finset.range Nn, f i * g (k - i)|
      ≤ ∑ i ∈ Finset.range Nn, |f i * g (k - i)| := Finset.abs_sum_le_sum_abs _ _
    _ ≤ ∑ i ∈ Finset.range Nn, |f i| * C := by
        refine Finset.sum_le_sum fun i _ => ?_
        rw [abs_mul]
        exact mul_le_mul_of_nonneg_left (hC (k - i)) (abs_nonneg _)
    _ = (∑ i ∈ Finset.range Nn, |f i|) * C := by rw [Finset.sum_mul]
    _ ≤ (W : ℤ) * C := mul_le_mul_of_nonneg_right hW hC0

theorem emod_modEq (a q : ℤ) : a % q ≡ a [ZMOD q] :=
  Int.emod_emod_of_dvd a dvd_rfl

theorem sub_self_emod (x q : ℤ) : (x - q) % q = x % q := by
  rw [show x - q = x + q * (-1) by ring, Int.add_mul_emod_self_left]

theorem center_mod_modEq (c q : ℤ) : center_mod c q ≡ c [ZMOD q] := by
  unfold center_mod
  split
  · show (c % q - q) % q = c % q
    rw [sub_self_emod, Int.emod_emod_of_dvd c dvd_rfl]
  · exact emod_modEq c q

theorem abs_center_mod_le (c q : ℤ) (hq : 0 < q) : 2 * |center_mod c q| ≤ q := by
  unfold center_mod
  have h0 : 0 ≤ c % q := Int.emod_nonneg c (by omega)
  have h1 : c % q < q := Int.emod_lt_of_pos c hq
  split <;> rename_i h
  · rw [abs_of_nonpos (by omega)]
    omega
  · rw [abs_of_nonneg h0]
    omega

theorem center_mod_eq_of_small (c q x : ℤ) (hq : 0 < q)
    (hx : x ≡ c [ZMOD q]) (hsmall : 2 * |x| < q) : center_mod c q = x := by
  have h1 : center_mod c q ≡ x [ZMOD q] := (center_mod_modEq c q).trans hx.symm
  have h2 : 2 * |center_mod c q| ≤ q := abs_center_mod_le c q hq
  have h3 : (q : ℤ) ∣ (center_mod c q - x) := Int.ModEq.dvd h1.symm
  have h4 : |center_mod c q - x| < q := by
    have := abs_sub (center_mod c q) x
    have h5 : |center_mod c q - x| ≤ |center_mod c q| + |x| := abs_sub _ _
    omega
  have := Int.eq_zero_of_abs_lt_dvd h3 h4
  omega

theorem low_bits_modEq (c a q : ℤ) : low_bits c a q ≡ c [ZMOD a] := by
  unfold low_bits
  split
  · show (c % a - a) % a = c % a
    rw [sub_self_emod, Int.emod_emod_of_dvd c dvd_rfl]
  · exact emod_modEq c a

theorem abs_low_bits_le (c a q : ℤ) (ha : 0 < a) : 2 * |low_bits c a q| ≤ a := by
  unfold low_bits
  have h0 : 0 ≤ c % a := Int.emod_nonneg c (by omega)
  have h1 : c % a < a := Int.emod_lt_of_pos c ha
  split <;> rename_i h
  · rw [abs_of_nonpos (by omega)]
    omega
  · rw [abs_of_nonneg h0]
    omega

/-- The decomposition identity of the glossary:
`c = HighBits·α + LowBits`. -/
theorem high_low_decomp (c a q : ℤ) (_ha : a ≠ 0) :
    c = a * high_bits c a q + low_bits c a q := by
  unfold high_bits
  have hdvd : a ∣ (c - low_bits c a q) := (low_bits_modEq c a q).dvd
  rw [Int.mul_ediv_cancel' hdvd]
  ring

theorem polymul_rq_modEq (a b : Poly) (k : Fin Nn) :
    polymul_rq a b k ≡ conv (extPoly a) (extPoly b) (k : ℤ) [ZMOD Q] :=
  emod_modEq _ Q

/-- Anti-periodic functions are determined by their values on `[0, N)`
up to the parity sign. -/
theorem antiperiodic_decomp (h : ℤ → ℤ) (hh : AntiPeriodic h) (z : ℤ) :
    h z = if (z / (Nn : ℤ)) % 2 = 0 then h ((idx z : Fin Nn) : ℤ)
          else - h ((idx z : Fin Nn) : ℤ) := by
  have key : ∀ t : ℤ, ∀ x : ℤ,
      h (x + t * (Nn : ℤ)) = if t % 2 = 0 then h x else - h x := by
    intro t
    induction t using Int.induction_on with
    | hz => intro x; norm_num
    | hp n ih =>
      intro x
      have e1 : x + ((n : ℤ) + 1) * (Nn : ℤ) = (x + n * (Nn : ℤ)) + (Nn : ℤ) := by ring
      rw [e1, hh, ih]
      rcases Int.emod_two_eq_zero_or_one (n : ℤ) with hp | hp
      · have : ((n : ℤ) + 1) % 2 = 1 := by omega
        simp [hp, this]
      · have : ((n : ℤ) + 1) % 2 = 0 := by omega
        simp [hp, this]
    | hn n ih =>
      intro x
      have e1 : x + (-(n : ℤ) - 1) * (Nn : ℤ) = (x + (-(n:ℤ)) * (Nn : ℤ)) - (Nn : ℤ) := by
        ring
      have e2 : h ((x + (-(n:ℤ)) * (Nn : ℤ)) - (Nn : ℤ)) =
          - h (x + (-(n:ℤ)) * (Nn : ℤ)) := by
        have := hh ((x + (-(n:ℤ)) * (Nn : ℤ)) - (Nn : ℤ))
        rw [show (x + (-(n:ℤ)) * (Nn : ℤ)) - (Nn : ℤ) + (Nn : ℤ)
            = x + (-(n:ℤ)) * (Nn : ℤ) by ring] at this
        omega
      rw [e1, e2, ih]
      rcases Int.emod_two_eq_zero_or_one (-(n : ℤ)) with hp | hp
      · have : (-(n : ℤ) - 1) % 2 = 1 := by omega
        simp [hp, this]
      · have : (-(n : ℤ) - 1) % 2 = 0 := by omega
        simp [hp, this]
  have hz : z = ((idx z : Fin Nn) : ℤ) + (z / (Nn : ℤ)) * (Nn : ℤ) := by
    have h1 : ((idx z : Fin Nn) : ℤ) = z % (Nn : ℤ) := by
      unfold idx
      simp only
      rw [Int.toNat_of_nonneg (Int.emod_nonneg z (by decide))]
    rw [h1]
    have hmod := Int.emod_add_ediv z (Nn : ℤ)
    have hcomm : (z / (Nn : ℤ)) * (Nn : ℤ) = (Nn : ℤ) * (z / (Nn : ℤ)) := mul_comm _ _
    omega
  calc h z = h (((idx z : Fin Nn) : ℤ) + (z / (Nn : ℤ)) * (Nn : ℤ)) := by rw [← hz]
    _ = _ := key (z / (Nn : ℤ)) _

/-- If the coefficients of `a` are congruent to an anti-periodic `h` on
`[0, N)`, then the extension of `a` is congruent to `h` everywhere. -/
theorem extPoly_modEq_of (a : Poly) (h : ℤ → ℤ) (hh : AntiPeriodic h) (q : ℤ)
    (hak : ∀ k : Fin Nn, a k ≡ h (k : ℤ) [ZMOD q]) (z : ℤ) :
    extPoly a z ≡ h z [ZMOD q] := by
  rw [antiperiodic_decomp h hh z]
  unfold extPoly
  split
  · exact hak (idx z)
  · exact (hak (idx z)).neg

theorem antiPeriodic_add (f g : ℤ → ℤ) (hf : AntiPeriodic f) (hg : AntiPeriodic g) :
    AntiPeriodic (fun z => f z + g z) := by
  intro z
  simp only [hf z, hg z]
  ring

theorem antiPeriodic_sub (f g : ℤ → ℤ) (hf : AntiPeriodic f) (hg : AntiPeriodic g) :
    AntiPeriodic (fun z => f z - g z) := by
  intro z
  simp only [hf z, hg z]
  ring

theorem conv_congr_right (f g g' : ℤ → ℤ) (k : ℤ) (h : ∀ z : ℤ, g z = g' z) :
    conv f g k = conv f g' k :=
  Finset.sum_congr rfl fun i _ => by rw [h (k - i)]

theorem conv_congr_left (f f' g : ℤ → ℤ) (k : ℤ) (h : ∀ z : ℤ, f z = f' z) :
    conv f g k = conv f' g k :=
  Finset.sum_congr rfl fun i _ => by rw [h (i : ℤ)]

/-- Swapping a product inside the second argument of a convolution:
`a ⋆ (c ⋆ s) = c ⋆ (a ⋆ s)`. -/
theorem conv_left_comm (a c s : ℤ → ℤ) (ha : AntiPeriodic a) (hc : AntiPeriodic c)
    (hs : AntiPeriodic s) (k : ℤ) :
    conv a (conv c s) k = conv c (conv a s) k := by
  rw [← conv_assoc a c s ha hc hs k]
  rw [conv_congr_left _ _ s k (fun z => conv_comm a c ha hc z)]
  exact conv_assoc c a s hc ha hs k

/-- Bounded coefficients give a bounded extension. -/
theorem abs_extPoly_le (a : Poly) (B : ℤ) (h : ∀ k : Fin Nn, |a k| ≤ B) :
    ∀ z : ℤ, |extPoly a z| ≤ B := by
  intro z
  unfold extPoly
  split
  · exact h (idx z)
  · rw [abs_neg]; exact h (idx z)

/-- `∑_{i<N} |ext a i| = ∑_k |a k|` (the window `[0,N)` sees the raw
coefficients). -/
theorem sum_abs_extPoly (a : Poly) :
    (∑ i ∈ Finset.range Nn, |extPoly a (i : ℤ)|) = ∑ k : Fin Nn, |a k| := by
  rw [← Fin.sum_univ_eq_sum_range (fun i => |extPoly a (i : ℤ)|) Nn]
  exact Finset.sum_congr rfl fun j _ => by rw [extPoly_coe]

theorem vec_norm_lt_iff {m : ℕ} (v : Fin m → Poly) (B : ℤ) (hB : 0 < B) :
    ((vec_infinity_norm v : ℤ) < B) ↔ ∀ (i : Fin m) (k : Fin Nn), |v i k| < B := by
  unfold vec_infinity_norm
  rw [← Int.lt_toNat,
    Finset.sup_lt_iff (show (⊥ : ℕ) < B.toNat by
      simp only [bot_eq_zero']
      omega)]
  constructor
  · intro h i k
    have h2 := h (i, k) (Finset.mem_univ _)
    simp only at h2
    rw [Int.abs_eq_natAbs]
    omega
  · intro h p _
    have h2 := h p.1 p.2
    rw [Int.abs_eq_natAbs] at h2
    omega

/-- Centering the canonical representative of a value congruent to a
small `d0` recovers `d0`, which lies below the verifier's limit. -/
theorem center_branch_small (D0 d0 : ℤ) (h0 : 0 ≤ D0) (h1 : D0 < Q)
    (hcong : D0 ≡ d0 [ZMOD Q]) (hsmall : |d0| ≤ 1047630) :
    |(if D0 ≤ Q / 2 then D0 else D0 - Q)| < BETA + (2 * GAMMA2) / 2 + 500 := by
  have hQ : Q = 8380417 := rfl
  have hdvd : (8380417 : ℤ) ∣ (d0 - D0) := by
    have h := hcong.dvd
    rw [hQ] at h
    exact h
  have hQ2 : Q / 2 = 4190208 := by decide
  have hlim : BETA + (2 * GAMMA2) / 2 + 500 = 1048302 := by decide
  rw [hQ] at h1
  rw [abs_le] at hsmall
  rw [hlim, hQ2]
  split <;> rw [abs_lt] <;> omega

/-- `a = b` gives a congruence for any modulus. -/
theorem modEq_of_eq {a b n : ℤ} (h : a = b) : a ≡ b [ZMOD n] := by
  rw [h]

/-- The single-coefficient error bound of `LatticeSigner.verify` on an
honestly signed input: with `z = y + c·s1 mod q`, `w = HighBits(A·y)`
and `t = A·s1 + s2 mod q`, the centered `Diff` coefficient equals
`LowBits(A·y) - c·s2`, whose magnitude is below `β + α/2 + 500`. -/
theorem verify_diff_small (c : Poly) (A : Fin Kdim → Fin Ldim → Poly)
    (s1 : Fin Ldim → Poly) (s2 : Fin Kdim → Poly) (y : Fin Ldim → Poly)
    (ch : List ℕ)
    (hc : (∑ k : Fin Nn, |c k|) ≤ (TAU : ℤ))
    (hs2 : ∀ (i : Fin Kdim) (k : Fin Nn), |s2 i k| ≤ ETA)
    (i : Fin Kdim) (k : Fin Nn) :
    |verify_diff c A (keygen_t A s1 s2)
      ⟨fun j k => (y j k + polymul_rq c (s1 j) k) % Q,
       fun i k => high_bits (matrix_vec_mul A y i k) (2 * GAMMA2) Q, ch⟩ i k|
      < BETA + (2 * GAMMA2) / 2 + 500 := by
  have hQpos : (0 : ℤ) < Q := by decide
  -- congruence of the extension of z_j
  have hzco : ∀ (j : Fin Ldim) (zz : ℤ),
      extPoly (fun kk => (y j kk + polymul_rq c (s1 j) kk) % Q) zz ≡
      (fun zz => extPoly (y j) zz + conv (extPoly c) (extPoly (s1 j)) zz) zz [ZMOD Q] := by
    intro j
    refine extPoly_modEq_of _ _
      (antiPeriodic_add _ _ (extPoly_antiperiodic _)
        (conv_antiperiodic _ _ (extPoly_antiperiodic _))) Q (fun kk => ?_)
    refine (emod_modEq _ _).trans (Int.ModEq.add ?_ (polymul_rq_modEq _ _ _))
    rw [extPoly_coe]
  -- congruence of each summand of A·z
  have haz : ∀ j : Fin Ldim,
      polymul_rq (A i j) (fun kk => (y j kk + polymul_rq c (s1 j) kk) % Q) k ≡
      conv (extPoly (A i j)) (extPoly (y j)) (k : ℤ)
        + conv (extPoly c) (conv (extPoly (A i j)) (extPoly (s1 j))) (k : ℤ) [ZMOD Q] := by
    intro j
    refine (polymul_rq_modEq _ _ _).trans ?_
    refine (conv_modEq_right _ _ _ Q (k : ℤ) (hzco j)).trans ?_
    rw [conv_add_right (extPoly (A i j)) (extPoly (y j))
      (conv (extPoly c) (extPoly (s1 j))) (k : ℤ)]
    rw [conv_left_comm (extPoly (A i j)) (extPoly c) (extPoly (s1 j))
      (extPoly_antiperiodic _) (extPoly_antiperiodic _) (extPoly_antiperiodic _) (k : ℤ)]
  -- congruence of the extension of t_i
  have htco : ∀ zz : ℤ, extPoly (keygen_t A s1 s2 i) zz ≡
      (fun zz => (conv (extPoly (A i 0)) (extPoly (s1 0)) zz
        + conv (extPoly (A i 1)) (extPoly (s1 1)) zz) + extPoly (s2 i) zz) zz [ZMOD Q] := by
    refine extPoly_modEq_of _ _
      (antiPeriodic_add _ _
        (antiPeriodic_add _ _
          (conv_antiperiodic _ _ (extPoly_antiperiodic _))
          (conv_antiperiodic _ _ (extPoly_antiperiodic _)))
        (extPoly_antiperiodic _)) Q (fun kk => ?_)
    refine (emod_modEq _ _).trans (Int.ModEq.add (Int.ModEq.add ?_ ?_) ?_)
    · exact (center_mod_modEq _ _).trans (polymul_rq_modEq _ _ _)
    · exact (center_mod_modEq _ _).trans (polymul_rq_modEq _ _ _)
    · rw [extPoly_coe]
  -- congruence of c·t_i
  have hct : polymul c (keygen_t A s1 s2 i) Q k ≡
      conv (extPoly c) (conv (extPoly (A i 0)) (extPoly (s1 0))) (k : ℤ)
        + conv (extPoly c) (conv (extPoly (A i 1)) (extPoly (s1 1))) (k : ℤ)
        + conv (extPoly c) (extPoly (s2 i)) (k : ℤ) [ZMOD Q] := by
    refine (polymul_rq_modEq _ _ _).trans ?_
    refine (conv_modEq_right _ _ _ Q (k : ℤ) htco).trans ?_
    rw [conv_add_right (extPoly c) _ (extPoly (s2 i)) (k : ℤ),
      conv_add_right (extPoly c) _ _ (k : ℤ)]
  -- congruence of A·y
  have hay : matrix_vec_mul A y i k ≡
      conv (extPoly (A i 0)) (extPoly (y 0)) (k : ℤ)
        + conv (extPoly (A i 1)) (extPoly (y 1)) (k : ℤ) [ZMOD Q] :=
    Int.ModEq.add (polymul_rq_modEq _ _ _) (polymul_rq_modEq _ _ _)
  -- replace α·HighBits(A·y) by A·y - LowBits(A·y)
  have hhl : (2 * GAMMA2) * high_bits (matrix_vec_mul A y i k) (2 * GAMMA2) Q =
      matrix_vec_mul A y i k - low_bits (matrix_vec_mul A y i k) (2 * GAMMA2) Q := by
    have h := high_low_decomp (matrix_vec_mul A y i k) (2 * GAMMA2) Q (by decide)
    linarith
  show |(if ((matrix_vec_mul A (fun j kk => (y j kk + polymul_rq c (s1 j) kk) % Q) i k
      - polymul c (keygen_t A s1 s2 i) Q k) % Q
      - (2 * GAMMA2) * high_bits (matrix_vec_mul A y i k) (2 * GAMMA2) Q) % Q ≤ Q / 2
    then ((matrix_vec_mul A (fun j kk => (y j kk + polymul_rq c (s1 j) kk) % Q) i k
      - polymul c (keygen_t A s1 s2 i) Q k) % Q
      - (2 * GAMMA2) * high_bits (matrix_vec_mul A y i k) (2 * GAMMA2) Q) % Q
    else ((matrix_vec_mul A (fun j kk => (y j kk + polymul_rq c (s1 j) kk) % Q) i k
      - polymul c (keygen_t A s1 s2 i) Q k) % Q
      - (2 * GAMMA2) * high_bits (matrix_vec_mul A y i k) (2 * GAMMA2) Q) % Q - Q)|
    < BETA + (2 * GAMMA2) / 2 + 500
  refine center_branch_small _
    (low_bits (matrix_vec_mul A y i k) (2 * GAMMA2) Q
      - conv (extPoly c) (extPoly (s2 i)) (k : ℤ))
    (Int.emod_nonneg _ (by decide)) (Int.emod_lt_of_pos _ hQpos) ?_ ?_
  · -- D0 ≡ LowBits(A·y) - c·s2
    refine (emod_modEq _ _).trans ?_
    rw [hhl]
    have hVco : matrix_vec_mul A (fun j kk => (y j kk + polymul_rq c (s1 j) kk) % Q) i k
        - polymul c (keygen_t A s1 s2 i) Q k ≡
        (conv (extPoly (A i 0)) (extPoly (y 0)) (k : ℤ)
          + conv (extPoly c) (conv (extPoly (A i 0)) (extPoly (s1 0))) (k : ℤ)
          + (conv (extPoly (A i 1)) (extPoly (y 1)) (k : ℤ)
            + conv (extPoly c) (conv (extPoly (A i 1)) (extPoly (s1 1))) (k : ℤ)))
        - (conv (extPoly c) (conv (extPoly (A i 0)) (extPoly (s1 0))) (k : ℤ)
          + conv (extPoly c) (conv (extPoly (A i 1)) (extPoly (s1 1))) (k : ℤ)
          + conv (extPoly c) (extPoly (s2 i)) (k : ℤ)) [ZMOD Q] :=
      Int.ModEq.sub (Int.ModEq.add (haz 0) (haz 1)) hct
    refine (Int.ModEq.sub (emod_modEq _ _) (Int.ModEq.refl
      (matrix_vec_mul A y i k
        - low_bits (matrix_vec_mul A y i k) (2 * GAMMA2) Q))).trans ?_
    refine (Int.ModEq.sub hVco
      (Int.ModEq.sub hay (Int.ModEq.refl
        (low_bits (matrix_vec_mul A y i k) (2 * GAMMA2) Q)))).trans ?_
    exact modEq_of_eq (by ring)
  · -- |LowBits(A·y) - c·s2| ≤ γ2 + τ·η
    have h1 : |low_bits (matrix_vec_mul A y i k) (2 * GAMMA2) Q| ≤ 1047552 := by
      have h := abs_low_bits_le (matrix_vec_mul A y i k) (2 * GAMMA2) Q (by decide)
      have hg : GAMMA2 = 1047552 := by decide
      omega
    have h2 : |conv (extPoly c) (extPoly (s2 i)) (k : ℤ)| ≤ 78 := by
      have h := abs_conv_le_of_weight (extPoly c) (extPoly (s2 i)) TAU ETA
        (by rw [sum_abs_extPoly]; exact hc)
        (abs_extPoly_le (s2 i) ETA (hs2 i)) (by decide) (k : ℤ)
      have he : ((TAU : ℕ) : ℤ) * ETA = 78 := by decide
      omega
    have h3 := abs_sub (low_bits (matrix_vec_mul A y i k) (2 * GAMMA2) Q)
      (conv (extPoly c) (extPoly (s2 i)) (k : ℤ))
    omega

/-- C3: For every keypair `(pk, sk)` produced by key generation
(`t = keygen_t A s1 s2` with `|s2| ≤ η`) and every message, any
signature returned by the signer (a rejection-sampling attempt that
passed the self-check `‖center(z)‖_∞ < γ1 - β`) is accepted by
`LatticeSigner.verify`: the error bound `β + α/2 + 500` always absorbs
`LowBits(A·y) - c·s2` (`≤ α/2 + τ·η = α/2 + 78 < α/2 + 750`).  The
challenge expander `_hash_to_poly` (a PRNG seeded from the hash) enters
as `chalFn` together with its ternary weight-`τ` output property; the
binding hash `sha256` enters as `shaFn`. -/
theorem sign_then_verify_ok
    (shaFn : List ℕ → (Fin Kdim → Poly) → List ℕ) (chalFn : List ℕ → Poly)
    (A : Fin Kdim → Fin Ldim → Poly) (s1 : Fin Ldim → Poly)
    (s2 : Fin Kdim → Poly) (msg : List ℕ) (y : Fin Ldim → Poly) (sig : Sig)
    (hchal : ∀ hsh : List ℕ, (∑ k : Fin Nn, |chalFn hsh k|) ≤ (TAU : ℤ))
    (hs2 : ∀ (i : Fin Kdim) (k : Fin Nn), |s2 i k| ≤ ETA)
    (hsig : sign_attempt shaFn chalFn A s1 msg y = some sig) :
    verify shaFn chalFn A (keygen_t A s1 s2) msg sig = true := by
  simp only [sign_attempt] at hsig
  split at hsig
  · exact absurd hsig (by simp)
  · rw [Option.some.injEq] at hsig
    subst hsig
    simp only [verify]
    rw [if_neg (show ¬(shaFn msg
        (fun i k => high_bits (matrix_vec_mul A y i k) (2 * GAMMA2) Q) ≠ shaFn msg
        (fun i k => high_bits (matrix_vec_mul A y i k) (2 * GAMMA2) Q))
      from fun hne => hne rfl)]
    rw [decide_eq_true_eq]
    rw [vec_norm_lt_iff _ _ (by decide)]
    intro i k
    exact verify_diff_small
      (chalFn (shaFn msg (fun i k => high_bits (matrix_vec_mul A y i k) (2 * GAMMA2) Q)))
      A s1 s2 y
      (shaFn msg (fun i k => high_bits (matrix_vec_mul A y i k) (2 * GAMMA2) Q))
      (hchal _) hs2 i k

/-! Evaluation helpers for concrete (all-zero) inputs. -/

theorem extPoly_zero (z : ℤ) : extPoly (fun _ => (0 : ℤ)) z = 0 := by
  unfold extPoly
  split <;> simp

theorem polymul_rq_zero (a : Poly) (k : Fin Nn) :
    polymul_rq a (fun _ => (0 : ℤ)) k = 0 := by
  unfold polymul_rq
  rw [conv_congr_right _ _ (fun _ => (0 : ℤ)) _ (fun z => extPoly_zero z)]
  unfold conv
  simp

theorem vec_infinity_norm_zero {m : ℕ} (v : Fin m → Poly)
    (h : ∀ (i : Fin m) (k : Fin Nn), v i k = 0) : vec_infinity_norm v = 0 := by
  unfold vec_infinity_norm
  refine Nat.le_zero.mp (Finset.sup_le fun p _ => ?_)
  simp [h p.1 p.2]

/-- Witness for `sign_then_verify_ok` at the all-zero key, commitment
and message. -/
theorem sign_then_verify_ok_witness :
    verify (fun _ _ => ([] : List ℕ)) (fun _ => (fun _ => (0 : ℤ)))
      (fun _ _ => (fun _ => (0 : ℤ)))
      (keygen_t (fun _ _ => (fun _ => (0 : ℤ))) (fun _ => (fun _ => (0 : ℤ)))
        (fun _ => (fun _ => (0 : ℤ))))
      [] ⟨fun _ => (fun _ => (0 : ℤ)), fun _ => (fun _ => (0 : ℤ)), []⟩ = true := by
  refine sign_then_verify_ok (fun _ _ => ([] : List ℕ)) (fun _ => (fun _ => (0 : ℤ)))
    (fun _ _ => (fun _ => (0 : ℤ))) (fun _ => (fun _ => (0 : ℤ)))
    (fun _ => (fun _ => (0 : ℤ))) [] (fun _ => (fun _ => (0 : ℤ))) _ ?_ ?_ ?_
  · intro hsh
    simp
  · intro i k
    simp [ETA]
  · simp only [sign_attempt]
    have hmv : ∀ (i : Fin Kdim) (k : Fin Nn),
        matrix_vec_mul (fun _ _ => (fun _ => (0 : ℤ))) (fun _ => (fun _ => (0 : ℤ))) i k
          = 0 := by
      intro i k
      show polymul_rq (fun _ => (0 : ℤ)) (fun _ => (0 : ℤ)) k
        + polymul_rq (fun _ => (0 : ℤ)) (fun _ => (0 : ℤ)) k = 0
      rw [polymul_rq_zero]
      norm_num
    split
    · rename_i h
      rw [vec_infinity_norm_zero _ (fun j k => by
        rw [polymul_rq_zero]
        decide)] at h
      exact absurd h (by decide)
    · refine congrArg some ?_
      refine congr (congr (congrArg Sig.mk ?_) ?_) rfl
      · funext j k
        rw [show ((0 : ℤ) + polymul_rq (fun _ => (0 : ℤ)) (fun _ => (0 : ℤ)) k) % Q
            = (0 : ℤ) from by rw [polymul_rq_zero]; decide]
      · funext i k
        rw [hmv i k]
        decide

theorem bitsToByte_byteToBits (b : ℕ) (hb : b < 256) :
    bitsToByte (byteToBits b) = b := by
  simp only [bitsToByte, byteToBits, List.foldl]
  omega

theorem length_bytesToBits (key : List ℕ) :
    (bytesToBits key).length = 8 * key.length := by
  induction key with
  | nil => rfl
  | cons b rest ih =>
    simp only [bytesToBits] at ih ⊢
    simp [List.length_append, ih, byteToBits]
    ring

theorem bytesToBits_drop (key : List ℕ) (i : ℕ) :
    (bytesToBits key).drop (8 * i) = bytesToBits (key.drop i) := by
  induction i generalizing key with
  | zero => simp
  | succ n ih =>
    cases key with
    | nil => simp [bytesToBits]
    | cons b rest =>
      have h1 : bytesToBits (b :: rest) = byteToBits b ++ bytesToBits rest := by
        simp [bytesToBits]
      rw [h1]
      rw [show 8 * (n + 1) = 8 + 8 * n by ring]
      rw [← List.drop_drop]
      rw [List.drop_left' (show (byteToBits b).length = 8 from rfl)]
      rw [ih]
      rw [List.drop_succ_cons]

theorem bitsToBytes_bytesToBits (key : List ℕ) (hlen : key.length = 32)
    (hval : ∀ b ∈ key, b < 256) : bitsToBytes (bytesToBits key) = key := by
  apply List.ext_getElem
  · simp [bitsToBytes, hlen]
  · intro i h1 h2
    simp only [bitsToBytes, List.getElem_map, List.getElem_range]
    rw [bytesToBits_drop]
    rw [List.drop_eq_getElem_cons h2]
    rw [show bytesToBits (key[i] :: key.drop (i + 1))
        = byteToBits key[i] ++ bytesToBits (key.drop (i + 1)) from by
      simp only [bytesToBits, List.flatMap_cons]]
    rw [List.take_left' (show (byteToBits key[i]).length = 8 from rfl)]
    exact bitsToByte_byteToBits _ (hval _ (List.getElem_mem h2))

/-- Every bit of a byte string is `0` or `1`. -/
theorem bytesToBits_getD (key : List ℕ) (i : ℕ) :
    (bytesToBits key).getD i 0 = 0 ∨ (bytesToBits key).getD i 0 = 1 := by
  by_cases hi : i < (bytesToBits key).length
  · rw [List.getD_eq_getElem _ _ hi]
    generalize hx : (bytesToBits key)[i] = x
    have hmem : x ∈ bytesToBits key := hx ▸ List.getElem_mem hi
    unfold bytesToBits at hmem
    rw [List.mem_flatMap] at hmem
    obtain ⟨b, _, hb⟩ := hmem
    simp only [byteToBits, List.mem_cons, List.not_mem_nil, or_false] at hb
    rcases hb with h | h | h | h | h | h | h | h <;> omega
  · rw [List.getD_eq_default _ _ (by omega)]
    left; rfl

/-- Decoding one coefficient: a canonical representative congruent to
`bit·(Q//2) + noise` with `|noise| < Q//4` decodes back to the bit. -/
theorem decode_bit_eq (Mn noise : ℤ) (b : ℕ) (hb : b = 0 ∨ b = 1)
    (h0 : 0 ≤ Mn) (h1 : Mn < Q)
    (hcong : Mn ≡ (if b = 1 then Q / 2 else 0) + noise [ZMOD Q])
    (hnoise : |noise| < Q / 4) :
    (if Q / 4 < Mn ∧ Mn < 3 * Q / 4 then 1 else 0) = b := by
  have hQ : Q = 8380417 := rfl
  have hQ4 : Q / 4 = 2095104 := by decide
  have hQ34 : 3 * Q / 4 = 6285312 := by decide
  have hQ2 : Q / 2 = 4190208 := by decide
  rw [hQ4] at hnoise
  rw [abs_lt] at hnoise
  rw [hQ] at h1
  rw [hQ4, hQ34]
  rcases hb with hb | hb <;> subst hb
  · have hdvd : (8380417 : ℤ) ∣ (noise - Mn) := by
      have h := hcong.dvd
      rw [hQ] at h
      simpa using h
    split <;> rename_i hc
    · exfalso; omega
    · rfl
  · have hdvd : (8380417 : ℤ) ∣ (4190208 + noise - Mn) := by
      have h := hcong.dvd
      rw [hQ2] at h
      rw [hQ] at h
      simpa using h
    split <;> rename_i hc
    · rfl
    · exfalso; omega

theorem conv_add_left (g g' f : ℤ → ℤ) (k : ℤ) :
    conv (fun z => g z + g' z) f k = conv g f k + conv g' f k := by
  unfold conv
  rw [← Finset.sum_add_distrib]
  refine Finset.sum_congr rfl fun i _ => by ring

theorem poly_add_modEq (a b : Poly) (q : ℤ) (k : Fin Nn) (x y : ℤ)
    (hx : a k ≡ x [ZMOD q]) (hy : b k ≡ y [ZMOD q]) :
    poly_add a b q k ≡ x + y [ZMOD q] :=
  (emod_modEq _ _).trans (hx.add hy)

theorem poly_sub_modEq (a b : Poly) (q : ℤ) (k : Fin Nn) (x y : ℤ)
    (hx : a k ≡ x [ZMOD q]) (hy : b k ≡ y [ZMOD q]) :
    poly_sub a b q k ≡ x - y [ZMOD q] :=
  (emod_modEq _ _).trans (hx.sub hy)

/-- The extension of the keygen public vector `t_i` is congruent to
`A_{i0}⋆s1_0 + A_{i1}⋆s1_1 + s2_i`. -/
theorem keygen_t_ext_modEq (A : Fin Kdim → Fin Ldim → Poly)
    (s1 : Fin Ldim → Poly) (s2 : Fin Kdim → Poly) (i : Fin Kdim) :
    ∀ zz : ℤ, extPoly (keygen_t A s1 s2 i) zz ≡
      (fun zz => (conv (extPoly (A i 0)) (extPoly (s1 0)) zz
        + conv (extPoly (A i 1)) (extPoly (s1 1)) zz) + extPoly (s2 i) zz) zz [ZMOD Q] := by
  refine extPoly_modEq_of _ _
    (antiPeriodic_add _ _
      (antiPeriodic_add _ _
        (conv_antiperiodic _ _ (extPoly_antiperiodic _))
        (conv_antiperiodic _ _ (extPoly_antiperiodic _)))
      (extPoly_antiperiodic _)) Q (fun kk => ?_)
  refine (emod_modEq _ _).trans (Int.ModEq.add (Int.ModEq.add ?_ ?_) ?_)
  · exact (center_mod_modEq _ _).trans (polymul_rq_modEq _ _ _)
  · exact (center_mod_modEq _ _).trans (polymul_rq_modEq _ _ _)
  · rw [extPoly_coe]

/-- C4: Decapsulating an encapsulation under the matching keypair
recovers the key, provided every coefficient of the accumulated LWE
noise `s2^T·r + e2 - s1^T·e1` has magnitude below `Q // 4`. -/
theorem kem_decaps_encaps (A : Fin Kdim → Fin Ldim → Poly)
    (s1 : Fin Ldim → Poly) (s2 : Fin Kdim → Poly) (r : Fin Kdim → Poly)
    (e1 : Fin Ldim → Poly) (e2 : Poly) (key : List ℕ)
    (hlen : key.length = 32) (hkey : ∀ b ∈ key, b < 256)
    (hnoise : ∀ k : Fin Nn, |kem_noise s1 s2 r e1 e2 k| < Q / 4) :
    lwe_decrypt_key s1 (lwe_encrypt_key A (keygen_t A s1 s2) key r e1 e2)
      = some key := by
  have hQpos : (0 : ℤ) < Q := by decide
  -- extension of each u_j
  have huext : ∀ (j : Fin Ldim) (zz : ℤ),
      extPoly (poly_add (poly_add (poly_add (fun _ => 0)
        (polymul_rq (A 0 j) (r 0)) Q) (polymul_rq (A 1 j) (r 1)) Q) (e1 j) Q) zz ≡
      (fun zz => (conv (extPoly (A 0 j)) (extPoly (r 0)) zz
        + conv (extPoly (A 1 j)) (extPoly (r 1)) zz) + extPoly (e1 j) zz) zz [ZMOD Q] := by
    intro j
    refine extPoly_modEq_of _ _
      (antiPeriodic_add _ _
        (antiPeriodic_add _ _
          (conv_antiperiodic _ _ (extPoly_antiperiodic _))
          (conv_antiperiodic _ _ (extPoly_antiperiodic _)))
        (extPoly_antiperiodic _)) Q (fun kk => ?_)
    refine (poly_add_modEq _ _ _ _ _ _
      (poly_add_modEq _ _ _ _ _ _
        (poly_add_modEq _ _ _ _ _ _ (Int.ModEq.refl 0) (polymul_rq_modEq _ _ _))
        (polymul_rq_modEq _ _ _))
      (modEq_of_eq (extPoly_coe (e1 j) kk).symm)).trans (modEq_of_eq (by ring))
  -- congruence of t_i ⋆ r_i
  have hti : ∀ (i : Fin Kdim) (k : Fin Nn),
      polymul_rq (keygen_t A s1 s2 i) (r i) k ≡
      conv (extPoly (A i 0)) (conv (extPoly (s1 0)) (extPoly (r i))) (k : ℤ)
        + conv (extPoly (A i 1)) (conv (extPoly (s1 1)) (extPoly (r i))) (k : ℤ)
        + conv (extPoly (s2 i)) (extPoly (r i)) (k : ℤ) [ZMOD Q] := by
    intro i k
    refine (polymul_rq_modEq _ _ _).trans ?_
    refine (conv_modEq_left _ _ _ Q (k : ℤ) (keygen_t_ext_modEq A s1 s2 i)).trans ?_
    refine modEq_of_eq ?_
    rw [conv_add_left (fun zz => conv (extPoly (A i 0)) (extPoly (s1 0)) zz
        + conv (extPoly (A i 1)) (extPoly (s1 1)) zz) (extPoly (s2 i)) (extPoly (r i)) (k : ℤ)]
    rw [conv_add_left (conv (extPoly (A i 0)) (extPoly (s1 0)))
      (conv (extPoly (A i 1)) (extPoly (s1 1))) (extPoly (r i)) (k : ℤ)]
    rw [conv_assoc (extPoly (A i 0)) (extPoly (s1 0)) (extPoly (r i))
      (extPoly_antiperiodic _) (extPoly_antiperiodic _) (extPoly_antiperiodic _) (k : ℤ)]
    rw [conv_assoc (extPoly (A i 1)) (extPoly (s1 1)) (extPoly (r i))
      (extPoly_antiperiodic _) (extPoly_antiperiodic _) (extPoly_antiperiodic _) (k : ℤ)]
  -- congruence of s1_j ⋆ u_j
  have hsuj : ∀ (j : Fin Ldim) (k : Fin Nn),
      polymul_rq (s1 j) (poly_add (poly_add (poly_add (fun _ => 0)
        (polymul_rq (A 0 j) (r 0)) Q) (polymul_rq (A 1 j) (r 1)) Q) (e1 j) Q) k ≡
      conv (extPoly (A 0 j)) (conv (extPoly (s1 j)) (extPoly (r 0))) (k : ℤ)
        + conv (extPoly (A 1 j)) (conv (extPoly (s1 j)) (extPoly (r 1))) (k : ℤ)
        + conv (extPoly (s1 j)) (extPoly (e1 j)) (k : ℤ) [ZMOD Q] := by
    intro j k
    refine (polymul_rq_modEq _ _ _).trans ?_
    refine (conv_modEq_right _ _ _ Q (k : ℤ) (huext j)).trans ?_
    refine modEq_of_eq ?_
    rw [conv_add_right (extPoly (s1 j)) (fun zz => conv (extPoly (A 0 j)) (extPoly (r 0)) zz
        + conv (extPoly (A 1 j)) (extPoly (r 1)) zz) (extPoly (e1 j)) (k : ℤ)]
    rw [conv_add_right (extPoly (s1 j)) (conv (extPoly (A 0 j)) (extPoly (r 0)))
      (conv (extPoly (A 1 j)) (extPoly (r 1))) (k : ℤ)]
    rw [conv_left_comm (extPoly (s1 j)) (extPoly (A 0 j)) (extPoly (r 0))
      (extPoly_antiperiodic _) (extPoly_antiperiodic _) (extPoly_antiperiodic _) (k : ℤ)]
    rw [conv_left_comm (extPoly (s1 j)) (extPoly (A 1 j)) (extPoly (r 1))
      (extPoly_antiperiodic _) (extPoly_antiperiodic _) (extPoly_antiperiodic _) (k : ℤ)]
  -- the noisy message coefficient
  have hm : ∀ k : Fin Nn,
      poly_sub
        (poly_add (poly_add (poly_add (poly_add (fun _ => 0)
          (polymul_rq (keygen_t A s1 s2 0) (r 0)) Q)
          (polymul_rq (keygen_t A s1 s2 1) (r 1)) Q) e2 Q) (encode_key_poly key) Q)
        (poly_add (poly_add (fun _ => 0)
          (polymul_rq (s1 0) (poly_add (poly_add (poly_add (fun _ => 0)
            (polymul_rq (A 0 0) (r 0)) Q) (polymul_rq (A 1 0) (r 1)) Q) (e1 0) Q)) Q)
          (polymul_rq (s1 1) (poly_add (poly_add (poly_add (fun _ => 0)
            (polymul_rq (A 0 1) (r 0)) Q) (polymul_rq (A 1 1) (r 1)) Q) (e1 1) Q)) Q)
        Q k ≡
      encode_key_poly key k + kem_noise s1 s2 r e1 e2 k [ZMOD Q] := by
    intro k
    refine (poly_sub_modEq _ _ _ _ _ _
      (poly_add_modEq _ _ _ _ _ _
        (poly_add_modEq _ _ _ _ _ _
          (poly_add_modEq _ _ _ _ _ _
            (poly_add_modEq _ _ _ _ _ _ (Int.ModEq.refl 0) (hti 0 k))
            (hti 1 k))
          (Int.ModEq.refl (e2 k)))
        (Int.ModEq.refl (encode_key_poly key k)))
      (poly_add_modEq _ _ _ _ _ _
        (poly_add_modEq _ _ _ _ _ _ (Int.ModEq.refl 0) (hsuj 0 k))
        (hsuj 1 k))).trans (modEq_of_eq ?_)
    unfold kem_noise
    ring
  -- assemble the decoded byte string
  simp only [lwe_decrypt_key, lwe_encrypt_key]
  refine congrArg some ?_
  have hbits : (List.ofFn fun k : Fin Nn =>
      if Q / 4 < poly_sub
        (poly_add (poly_add (poly_add (poly_add (fun _ => 0)
          (polymul_rq (keygen_t A s1 s2 0) (r 0)) Q)
          (polymul_rq (keygen_t A s1 s2 1) (r 1)) Q) e2 Q) (encode_key_poly key) Q)
        (poly_add (poly_add (fun _ => 0)
          (polymul_rq (s1 0) (poly_add (poly_add (poly_add (fun _ => 0)
            (polymul_rq (A 0 0) (r 0)) Q) (polymul_rq (A 1 0) (r 1)) Q) (e1 0) Q)) Q)
          (polymul_rq (s1 1) (poly_add (poly_add (poly_add (fun _ => 0)
            (polymul_rq (A 0 1) (r 0)) Q) (polymul_rq (A 1 1) (r 1)) Q) (e1 1) Q)) Q)
        Q k ∧ poly_sub
        (poly_add (poly_add (poly_add (poly_add (fun _ => 0)
          (polymul_rq (keygen_t A s1 s2 0) (r 0)) Q)
          (polymul_rq (keygen_t A s1 s2 1) (r 1)) Q) e2 Q) (encode_key_poly key) Q)
        (poly_add (poly_add (fun _ => 0)
          (polymul_rq (s1 0) (poly_add (poly_add (poly_add (fun _ => 0)
            (polymul_rq (A 0 0) (r 0)) Q) (polymul_rq (A 1 0) (r 1)) Q) (e1 0) Q)) Q)
          (polymul_rq (s1 1) (poly_add (poly_add (poly_add (fun _ => 0)
            (polymul_rq (A 0 1) (r 0)) Q) (polymul_rq (A 1 1) (r 1)) Q) (e1 1) Q)) Q)
        Q k < 3 * Q / 4 then 1 else 0) = bytesToBits key := by
    apply List.ext_getElem
    · rw [List.length_ofFn, length_bytesToBits, hlen]
      decide
    · intro i hi1 hi2
      simp only [List.getElem_ofFn]
      rw [← List.getD_eq_getElem (bytesToBits key) 0 hi2]
      have hiN : i < Nn := by rw [List.length_ofFn] at hi1; exact hi1
      refine decode_bit_eq _ (kem_noise s1 s2 r e1 e2 ⟨i, hiN⟩) _
        (bytesToBits_getD key i)
        (Int.emod_nonneg _ (by decide)) (Int.emod_lt_of_pos _ hQpos) ?_
        (hnoise ⟨i, hiN⟩)
      have h := hm ⟨i, hiN⟩
      simpa [encode_key_poly] using h
  rw [hbits]
  exact bitsToBytes_bytesToBits key hlen hkey

/-- Witness for `kem_decaps_encaps` at the all-zero keypair, all-zero
noise and the all-zero 32-byte key. -/
theorem kem_decaps_encaps_witness :
    lwe_decrypt_key (fun _ => (fun _ => (0 : ℤ)))
      (lwe_encrypt_key (fun _ _ => (fun _ => (0 : ℤ)))
        (keygen_t (fun _ _ => (fun _ => (0 : ℤ))) (fun _ => (fun _ => (0 : ℤ)))
          (fun _ => (fun _ => (0 : ℤ))))
        (List.replicate 32 0) (fun _ => (fun _ => (0 : ℤ)))
        (fun _ => (fun _ => (0 : ℤ))) (fun _ => (0 : ℤ)))
      = some (List.replicate 32 0) := by
  have hc0 : ∀ k : ℤ,
      conv (extPoly (fun _ => (0 : ℤ))) (extPoly (fun _ => (0 : ℤ))) k = 0 := by
    intro k
    rw [conv_congr_right _ _ (fun _ => (0 : ℤ)) _ extPoly_zero]
    unfold conv
    simp
  refine kem_decaps_encaps _ _ _ _ _ _ _ (by simp) ?_ ?_
  · intro b hb
    rw [List.eq_of_mem_replicate hb]
    norm_num
  · intro k
    simp only [kem_noise, hc0]
    decide

/-- The placement-loop invariant: lengths, ternary values, weight
bookkeeping, weight cap, weight monotonicity, persistence of set slots,
and the coverage of processed bytes. -/
theorem chalStep_fold_inv (digest : List ℕ) : ∀ (c : List ℤ) (w : ℕ),
    c.length = Nn →
    (∀ x ∈ c, x = -1 ∨ x = 0 ∨ x = 1) →
    (Finset.univ.filter fun p : Fin Nn => c.getD p 0 ≠ 0).card = w →
    w ≤ TAU →
    (digest.foldl chalStep (c, w)).1.length = Nn ∧
    (∀ x ∈ (digest.foldl chalStep (c, w)).1, x = -1 ∨ x = 0 ∨ x = 1) ∧
    (Finset.univ.filter fun p : Fin Nn =>
      (digest.foldl chalStep (c, w)).1.getD p 0 ≠ 0).card
        = (digest.foldl chalStep (c, w)).2 ∧
    (digest.foldl chalStep (c, w)).2 ≤ TAU ∧
    w ≤ (digest.foldl chalStep (c, w)).2 ∧
    (∀ p : Fin Nn, c.getD p 0 ≠ 0 →
      (digest.foldl chalStep (c, w)).1.getD p 0 ≠ 0) ∧
    ((digest.foldl chalStep (c, w)).2 = TAU ∨
      ∀ b ∈ digest, (digest.foldl chalStep (c, w)).1.getD (b % Nn) 0 ≠ 0) := by
  induction digest with
  | nil =>
    intro c w hlen htern hcard hwle
    refine ⟨hlen, htern, hcard, hwle, le_refl _, fun p h => h, Or.inr ?_⟩
    intro b hb
    exact absurd hb (List.not_mem_nil b)
  | cons b rest ih =>
    intro c w hlen htern hcard hwle
    rw [List.foldl_cons]
    by_cases hTA : w ≥ TAU
    · rw [show chalStep (c, w) b = (c, w) from by unfold chalStep; rw [if_pos hTA]]
      obtain ⟨l1, l2, l3, l4, l5, l6, l7⟩ := ih c w hlen htern hcard hwle
      refine ⟨l1, l2, l3, l4, l5, l6, Or.inl ?_⟩
      omega
    · have hjlt : b % Nn < Nn := Nat.mod_lt _ (by decide)
      by_cases hz : c.getD (b % Nn) 0 = 0
      · rw [show chalStep (c, w) b
            = (c.set (b % Nn) (if b % 2 = 1 then 1 else -1), w + 1) from by
          unfold chalStep
          rw [if_neg hTA, if_pos hz]]
        have hvne : (if b % 2 = 1 then (1:ℤ) else -1) ≠ 0 := by
          split <;> omega
        have hset : ∀ p : Fin Nn,
            (c.set (b % Nn) (if b % 2 = 1 then (1:ℤ) else -1)).getD (p : ℕ) 0
              = if (p : ℕ) = b % Nn then (if b % 2 = 1 then (1:ℤ) else -1)
                else c.getD (p : ℕ) 0 := by
          intro p
          have hplt : (p : ℕ) < c.length := by rw [hlen]; exact p.isLt
          have hplt' : (p : ℕ) < (c.set (b % Nn) (if b % 2 = 1 then (1:ℤ) else -1)).length := by
            rw [List.length_set]; exact hplt
          rw [List.getD_eq_getElem _ _ hplt', List.getD_eq_getElem _ _ hplt]
          by_cases hp : (p : ℕ) = b % Nn
          · rw [if_pos hp]
            simp only [hp]
            exact List.getElem_set_self _
          · rw [if_neg hp]
            exact List.getElem_set_ne (fun h => hp h.symm) _
      -- the invariant hypotheses for the updated state
        have hlen' : (c.set (b % Nn) (if b % 2 = 1 then (1:ℤ) else -1)).length = Nn := by
          rw [List.length_set]; exact hlen
        have htern' : ∀ x ∈ c.set (b % Nn) (if b % 2 = 1 then (1:ℤ) else -1),
            x = -1 ∨ x = 0 ∨ x = 1 := by
          intro x hx
          rcases List.mem_or_eq_of_mem_set hx with h | h
          · exact htern x h
          · subst h
            split <;> simp
        have hcard' : (Finset.univ.filter fun p : Fin Nn =>
            (c.set (b % Nn) (if b % 2 = 1 then (1:ℤ) else -1)).getD p 0 ≠ 0).card
              = w + 1 := by
          have hins : (Finset.univ.filter fun p : Fin Nn =>
              (c.set (b % Nn) (if b % 2 = 1 then (1:ℤ) else -1)).getD p 0 ≠ 0)
                = insert (⟨b % Nn, hjlt⟩ : Fin Nn)
                  (Finset.univ.filter fun p : Fin Nn => c.getD p 0 ≠ 0) := by
            ext p
            simp only [Finset.mem_filter, Finset.mem_univ, true_and,
              Finset.mem_insert]
            rw [hset p]
            by_cases hp : (p : ℕ) = b % Nn
            · rw [if_pos hp]
              constructor
              · intro _
                left
                exact Fin.ext hp
              · intro _
                exact hvne
            · rw [if_neg hp]
              constructor
              · intro h
                right
                exact h
              · intro h
                rcases h with h | h
                · exact absurd (congrArg Fin.val h) hp
                · exact h
          rw [hins, Finset.card_insert_of_not_mem, hcard]
          simp only [Finset.mem_filter, Finset.mem_univ, true_and]
          intro hmem
          exact hmem hz
        have hwle' : w + 1 ≤ TAU := by omega
        obtain ⟨l1, l2, l3, l4, l5, l6, l7⟩ :=
          ih _ (w + 1) hlen' htern' hcard' hwle'
        refine ⟨l1, l2, l3, l4, by omega, ?_, ?_⟩
        · intro p hp
          refine l6 p ?_
          rw [hset p]
          split <;> [exact hvne; exact hp]
        · rcases l7 with l7 | l7
          · exact Or.inl l7
          · refine Or.inr fun b' hb' => ?_
            rcases List.mem_cons.mp hb' with hb' | hb'
            · subst hb'
              refine l6 ⟨b' % Nn, hjlt⟩ ?_
              rw [hset ⟨b' % Nn, hjlt⟩]
              rw [if_pos rfl]
              exact hvne
            · exact l7 b' hb'
      · rw [show chalStep (c, w) b = (c, w) from by
          unfold chalStep
          rw [if_neg hTA, if_neg hz]]
        obtain ⟨l1, l2, l3, l4, l5, l6, l7⟩ := ih c w hlen htern hcard hwle
        refine ⟨l1, l2, l3, l4, l5, l6, ?_⟩
        rcases l7 with l7 | l7
        · exact Or.inl l7
        · refine Or.inr fun b' hb' => ?_
          rcases List.mem_cons.mp hb' with hb' | hb'
          · subst hb'
            exact l6 ⟨b' % Nn, hjlt⟩ hz
          · exact l7 b' hb'

/-- C9 (amended): the challenge derivation is a pure function of
`(message, W_HighBits, timestamp)` (given the SHAKE-256 oracle), its
output has length `N` with all coefficients in `{-1, 0, +1}`, and its
Hamming weight is at most `τ = 39`, with equality whenever the 128-byte
digest covers at least `τ` distinct slot residues mod `N` (the loop
stops after the digest is exhausted, so fewer distinct residues give a
smaller weight). -/
theorem derive_challenge_ternary_weight (shake : List ℕ → ℕ → List ℕ)
    (message : List ℕ) (W_HighBits : List (List ℤ)) (timestamp : ℕ) :
    (derive_challenge shake message W_HighBits timestamp).length = Nn ∧
    (∀ x ∈ derive_challenge shake message W_HighBits timestamp,
      x = -1 ∨ x = 0 ∨ x = 1) ∧
    hamming_weight (derive_challenge shake message W_HighBits timestamp) ≤ TAU ∧
    (TAU ≤ (((shake (message ++ encode_W W_HighBits ++ ts8 timestamp)
        (Nn / 2)).map fun b => b % Nn).toFinset).card →
      hamming_weight (derive_challenge shake message W_HighBits timestamp)
        = TAU) := by
  unfold derive_challenge hash_to_challenge hamming_weight
  have h0len : (List.replicate Nn (0 : ℤ)).length = Nn := List.length_replicate _ _
  have h0tern : ∀ x ∈ List.replicate Nn (0 : ℤ), x = -1 ∨ x = 0 ∨ x = 1 := by
    intro x hx
    rw [List.eq_of_mem_replicate hx]
    right; left; rfl
  have h0getD : ∀ p : Fin Nn, (List.replicate Nn (0 : ℤ)).getD (p : ℕ) 0 = 0 := by
    intro p
    rw [List.getD_eq_getElem _ _ (by rw [h0len]; exact p.isLt)]
    exact List.getElem_replicate _ _
  have h0card : (Finset.univ.filter fun p : Fin Nn =>
      (List.replicate Nn (0 : ℤ)).getD (p : ℕ) 0 ≠ 0).card = 0 := by
    refine Finset.card_eq_zero.mpr (Finset.filter_eq_empty_iff.mpr ?_)
    intro p _
    rw [h0getD p]
    omega
  obtain ⟨l1, l2, l3, l4, _, _, l7⟩ := chalStep_fold_inv
    (shake (message ++ encode_W W_HighBits ++ ts8 timestamp) (Nn / 2))
    (List.replicate Nn 0) 0 h0len h0tern h0card (by omega)
  refine ⟨l1, l2, by omega, ?_⟩
  intro hdist
  have hT : ∀ m ∈ ((shake (message ++ encode_W W_HighBits ++ ts8 timestamp)
      (Nn / 2)).map fun b => b % Nn).toFinset, m < Nn := by
    intro m hm
    rw [List.mem_toFinset, List.mem_map] at hm
    obtain ⟨b, _, rfl⟩ := hm
    exact Nat.mod_lt _ (by decide)
  have hTAU : ((shake (message ++ encode_W W_HighBits ++ ts8 timestamp)
      (Nn / 2)).foldl chalStep (List.replicate Nn 0, 0)).2 = TAU := by
    rcases l7 with l7 | l7
    · exact l7
    · have hsub : (((shake (message ++ encode_W W_HighBits ++ ts8 timestamp)
          (Nn / 2)).map fun b => b % Nn).toFinset).attachFin hT ⊆
          Finset.univ.filter fun p : Fin Nn =>
            ((shake (message ++ encode_W W_HighBits ++ ts8 timestamp)
              (Nn / 2)).foldl chalStep (List.replicate Nn 0, 0)).1.getD (p : ℕ) 0
              ≠ 0 := by
        intro p hp
        rw [Finset.mem_attachFin] at hp
        rw [List.mem_toFinset, List.mem_map] at hp
        obtain ⟨b, hb, hbp⟩ := hp
        rw [Finset.mem_filter]
        refine ⟨Finset.mem_univ _, ?_⟩
        rw [← hbp]
        exact l7 b hb
      have hcard := Finset.card_le_card hsub
      rw [Finset.card_attachFin] at hcard
      omega
  rw [hTAU] at l3
  exact l3

set_option maxRecDepth 100000 in
/-- C9 counterexample: on the all-zero digest (the SHAKE oracle held
constant), the placement loop exhausts all 128 bytes on slot `0` and
stops at Hamming weight `1`, not `τ = 39`: the weight is not always
exactly `τ`. -/
theorem derive_challenge_weight_not_always_tau :
    hamming_weight (derive_challenge (fun _ _ => List.replicate 128 0) [] [] 0)
      = 1 ∧ TAU = 39 := by
  constructor
  · decide
  · rfl

set_option maxRecDepth 100000 in
/-- Witness for `derive_challenge_ternary_weight`: a digest consisting of
the bytes `0..127` covers `128 ≥ τ` distinct residues, so the weight is
exactly `τ`. -/
theorem derive_challenge_ternary_weight_witness :
    hamming_weight (derive_challenge (fun _ _ => List.range 128) [] [] 0)
      = TAU := by
  refine (derive_challenge_ternary_weight (fun _ _ => List.range 128)
    [] [] 0).2.2.2 ?_
  decide

/-- C8 counterexample: calling `phase2_response` with
`global_Ay_sum = None` while a commitment secret is stored raises the
"Security Risk" error *before* the `try`/`finally`, so the stored `y`
is NOT cleared, contradicting the claim that every terminating call
clears it. -/
theorem phase2_response_retains_y_on_missing_W :
    ((phase2_response (fun _ _ => [])
      ⟨fun _ => (fun _ => (0 : ℤ)), fun _ => (fun _ => (0 : ℤ)),
       fun _ _ => (fun _ => (0 : ℤ)), some (fun _ => (fun _ => (1 : ℤ)))⟩
      (.tuple [] 0) none).2.y ≠ none) ∧
    ((phase2_response (fun _ _ => [])
      ⟨fun _ => (fun _ => (0 : ℤ)), fun _ => (fun _ => (0 : ℤ)),
       fun _ _ => (fun _ => (0 : ℤ)), some (fun _ => (fun _ => (1 : ℤ)))⟩
      (.tuple [] 0) none).1 =
      .error "Security Risk: Must provide global_Ay_sum.") := by
  constructor
  · simp [phase2_response]
  · rfl

set_option maxRecDepth 10000 in
/-- C8 (amended): whenever `phase2_response` is called with a global
`W` supplied, the stored commitment secret `y` is cleared on every
path — success, rejection by either norm check, or the message-format
path — and a subsequent call (with `y` absent) fails with the
"Security Violation" error instead of reusing the old `y`.  (A call
with `W = None` raises before the `try`/`finally` and retains `y`; see
the counterexample.) -/
theorem phase2_response_clears_y (shake : List ℕ → ℕ → List ℕ)
    (st : ThresholdSignerState) (md md2 : MessageData)
    (W : Fin Kdim → Poly) (W2 : Option (Fin Kdim → Poly)) :
    (phase2_response shake st md (some W)).2.y = none ∧
    (st.y = none →
      (phase2_response shake st md2 W2).1 =
        .error "Security Violation: Phase 1 not executed or y already consumed.") := by
  constructor
  · unfold phase2_response
    cases hy : st.y with
    | none => rw [hy]
    | some yv =>
      simp only
      split
      · rfl
      · split <;> rfl
  · intro h
    unfold phase2_response
    rw [h]

/-- Witness for `phase2_response_clears_y` at a concrete state. -/
theorem phase2_response_clears_y_witness :
    (phase2_response (fun _ _ => [])
      ⟨fun _ => (fun _ => (0 : ℤ)), fun _ => (fun _ => (0 : ℤ)),
       fun _ _ => (fun _ => (0 : ℤ)), none⟩
      (.tuple [] 0) (some (fun _ => (fun _ => (0 : ℤ))))).2.y = none ∧
    (phase2_response (fun _ _ => [])
      ⟨fun _ => (fun _ => (0 : ℤ)), fun _ => (fun _ => (0 : ℤ)),
       fun _ _ => (fun _ => (0 : ℤ)), none⟩
      (.tuple [] 0) none).1 =
      .error "Security Violation: Phase 1 not executed or y already consumed." := by
  refine ⟨(phase2_response_clears_y (fun _ _ => [])
    ⟨fun _ => (fun _ => (0 : ℤ)), fun _ => (fun _ => (0 : ℤ)),
     fun _ _ => (fun _ => (0 : ℤ)), none⟩
    (.tuple [] 0) (.tuple [] 0) (fun _ => (fun _ => (0 : ℤ))) none).1, ?_⟩
  exact (phase2_response_clears_y (fun _ _ => [])
    ⟨fun _ => (fun _ => (0 : ℤ)), fun _ => (fun _ => (0 : ℤ)),
     fun _ _ => (fun _ => (0 : ℤ)), none⟩
    (.tuple [] 0) (.tuple [] 0) (fun _ => (fun _ => (0 : ℤ))) none).2 rfl

/-- C5: the responder side of the handshake succeeds and stores the session
key only if the signature verifies, `|now - ts| <= 60`, and decapsulation
yields a nonempty 32-byte key; on any failing path it returns `false` and
leaves the channel state unchanged; in particular a handshake delivered at
`ts + 61` is rejected, and one whose signature does not verify (e.g. signed
by an unrelated key) is rejected. -/
theorem setup_participant_session_checks
    (shaFn : List ℕ → (Fin Kdim → Poly) → List ℕ) (chalFn : List ℕ → Poly)
    (A : Fin Kdim → Fin Ldim → Poly) (peer_t : Fin Kdim → Poly)
    (payload_bytes : List ℕ) (signature : Sig) (ts now : ℤ)
    (s : Fin Ldim → Poly) (kem : (Fin Ldim → Poly) × Poly)
    (st : SecureChannelState) :
    ((setup_participant_session_verified shaFn chalFn A peer_t payload_bytes
        signature ts now s kem st).1 = true →
      verify shaFn chalFn A peer_t payload_bytes signature = true ∧
      |now - ts| ≤ TIMESTAMP_TOLERANCE ∧
      ∃ key, lwe_decrypt_key s kem = some key ∧ key ≠ [] ∧
        key.length = AES_KEY_SIZE ∧
        (setup_participant_session_verified shaFn chalFn A peer_t payload_bytes
          signature ts now s kem st).2 = ⟨some key, true⟩) ∧
    ((setup_participant_session_verified shaFn chalFn A peer_t payload_bytes
        signature ts now s kem st).1 = false →
      (setup_participant_session_verified shaFn chalFn A peer_t payload_bytes
        signature ts now s kem st).2 = st) ∧
    (verify shaFn chalFn A peer_t payload_bytes signature = false →
      (setup_participant_session_verified shaFn chalFn A peer_t payload_bytes
        signature ts now s kem st).1 = false) ∧
    (now = ts + 61 →
      (setup_participant_session_verified shaFn chalFn A peer_t payload_bytes
        signature ts now s kem st).1 = false ∧
      (setup_participant_session_verified shaFn chalFn A peer_t payload_bytes
        signature ts now s kem st).2 = st) := by
  unfold setup_participant_session_verified
  by_cases hv : verify shaFn chalFn A peer_t payload_bytes signature = false
  · rw [if_pos hv]
    refine ⟨by intro h; exact absurd h (by simp), fun _ => rfl, fun _ => rfl,
      fun _ => ⟨rfl, rfl⟩⟩
  · rw [if_neg hv]
    by_cases hts : TIMESTAMP_TOLERANCE < |now - ts|
    · rw [if_pos hts]
      refine ⟨by intro h; exact absurd h (by simp), fun _ => rfl,
        fun h => absurd h hv, fun _ => ⟨rfl, rfl⟩⟩
    · rw [if_neg hts]
      have hv' : verify shaFn chalFn A peer_t payload_bytes signature = true := by
        revert hv; cases verify shaFn chalFn A peer_t payload_bytes signature <;> simp
      have hts' : now = ts + 61 → False := by
        intro h; apply hts; rw [h]
        simp only [add_sub_cancel_left, TIMESTAMP_TOLERANCE]
        decide
      cases hk : lwe_decrypt_key s kem with
      | none =>
        refine ⟨by intro h; exact absurd h (by simp), fun _ => rfl,
          fun h => absurd h hv, fun h => absurd h hts'⟩
      | some key =>
        dsimp only
        by_cases hkey : key = [] ∨ key.length ≠ AES_KEY_SIZE
        · rw [if_pos hkey]
          refine ⟨by intro h; exact absurd h (by simp), fun _ => rfl,
            fun h => absurd h hv, fun h => absurd h hts'⟩
        · rw [if_neg hkey]
          push_neg at hkey
          refine ⟨fun _ => ⟨hv', not_lt.mp hts, key, rfl, hkey.1, hkey.2, rfl⟩,
            fun h => absurd h (by simp), fun h => absurd h hv,
            fun h => absurd h hts'⟩

set_option maxRecDepth 40000 in
/-- C1: once every verified peer has a `z`, `_check_phase2_complete`
broadcasts `REQ_SHARE` and enters `RECONSTRUCTING` unconditionally — no
aggregation and no call to `verify_final_signature` happens — even when
the aggregated response is one that `verify_final_signature` rejects
(here `Z = γ1` everywhere, whose centered norm `γ1 ≥ γ1 - β` fails the
norm check, so verification would return `False` for every challenge,
key and message). -/
theorem req_share_sent_without_signature_check :
    (check_phase2_complete c1_host).2 = [ProtoMsg.reqShare] ∧
    (check_phase2_complete c1_host).1.state = SessionState.RECONSTRUCTING ∧
    aggregate_responses [fun _ => (fun _ => (GAMMA1 : ℤ))] = some c1_Z ∧
    ∀ (shake : List ℕ → ℕ → List ℕ) (C : List ℤ) (T : Fin Kdim → Poly)
      (A : Fin Kdim → Fin Ldim → Poly) (msg : List ℕ) (ts : ℕ)
      (W : Option (Fin Kdim → Poly)),
      verify_final_signature shake c1_Z C T A msg ts W = false := by
  refine ⟨rfl, rfl, rfl, ?_⟩
  intro shake C T A msg ts W
  have hnorm : ∀ j : Fin Ldim, ∀ k : Fin Nn,
      center_mod (c1_Z j k) Q = GAMMA1 := by
    intro j k
    show center_mod (GAMMA1 + 0) Q = GAMMA1
    decide
  have hsup : vec_infinity_norm (fun j k => center_mod (c1_Z j k) Q)
      = (GAMMA1 : ℤ).natAbs := by
    unfold vec_infinity_norm
    apply le_antisymm
    · apply Finset.sup_le
      intro p _
      show (center_mod (c1_Z p.1 p.2) Q).natAbs ≤ (GAMMA1 : ℤ).natAbs
      rw [hnorm p.1 p.2]
    · have h00 := hnorm 0 0
      calc (GAMMA1 : ℤ).natAbs
          = (center_mod (c1_Z 0 0) Q).natAbs := by rw [h00]
        _ ≤ _ := Finset.le_sup (f := fun p : Fin Ldim × Fin Nn =>
            ((fun j k => center_mod (c1_Z j k) Q) p.1 p.2).natAbs)
          (Finset.mem_univ ((0 : Fin Ldim), (0 : Fin Nn)))
  simp only [verify_final_signature]
  split
  · rfl
  · rename_i hcond
    rw [hsup] at hcond
    exact absurd (by decide) hcond

/-- C6 counterexample: a `RES_RESPONSE` arriving while the session is
still `IDLE` is not discarded: the response is stored, the phase-2
completeness check runs, `REQ_SHARE` is broadcast and the session jumps
straight to `RECONSTRUCTING`. -/
theorem host_accepts_response_in_idle :
    c6_host.state = SessionState.IDLE ∧
    (handle_message (fun _ _ => []) (fun _ => none) 0 c6_host 0
      (.resResponse (fun _ => (fun _ => 0))) 0).1.state
      = SessionState.RECONSTRUCTING ∧
    ((handle_message (fun _ _ => []) (fun _ => none) 0 c6_host 0
      (.resResponse (fun _ => (fun _ => 0))) 0).1.peers.getD 0 default).z
      = some (fun _ => (fun _ => (0 : ℤ))) ∧
    (handle_message (fun _ _ => []) (fun _ => none) 0 c6_host 0
      (.resResponse (fun _ => (fun _ => 0))) 0).2 = [ProtoMsg.reqShare] :=
  ⟨rfl, rfl, rfl, rfl⟩

/-- C6 (amended): `_handle_message` never consults `self.state`:
every message kind is processed identically in every session state, a
`RES_RESPONSE` from any known channel is stored unconditionally, a
`RES_SHARE` likewise, and a `RES_COMMITMENT` is gated only by the
sender's `verified` flag — not by the session phase. -/
theorem handle_message_ignores_session_state
    (shake : List ℕ → ℕ → List ℕ) (rf : List ℕ → Option ℕ) (now : ℕ)
    (h : HostState) (idx : ℕ) (w : Fin Kdim → Poly) (z : Fin Ldim → Poly)
    (sh addr : ℕ) (σ : SessionState) :
    (∀ m : HostMsg,
      (handle_message shake rf now {h with state := σ} idx m addr).1.peers
        = (handle_message shake rf now h idx m addr).1.peers ∧
      (handle_message shake rf now {h with state := σ} idx m addr).2
        = (handle_message shake rf now h idx m addr).2) ∧
    (idx < h.peers.length →
      ((handle_message shake rf now h idx (.resResponse z) addr).1.peers.getD
        idx default).z = some z) ∧
    (idx < h.peers.length →
      ((handle_message shake rf now h idx (.resShare sh) addr).1.peers.getD
        idx default).share = some sh) ∧
    ((h.peers.getD idx default).verified = true →
      ((handle_message shake rf now h idx (.resCommitment w) addr).1.peers.getD
        idx default).w = some w) := by
  have hset : ∀ (d' : PeerData), idx < h.peers.length →
      (h.peers.set idx d').getD idx default = d' := by
    intro d' hidx
    rw [List.getD_eq_getElem?_getD, List.getElem?_set_self (by simpa using hidx)]
    rfl
  refine ⟨?_, ?_, ?_, ?_⟩
  · intro m
    cases m <;>
      simp only [handle_message, check_phase1_complete, check_phase2_complete,
        check_phase3_complete] <;>
      split <;>
      first
        | exact ⟨rfl, rfl⟩
        | (split <;> first
            | exact ⟨rfl, rfl⟩
            | (split <;> exact ⟨rfl, rfl⟩))
  · intro hidx
    simp only [handle_message, check_phase2_complete]
    rw [if_pos hidx]
    split <;> simpa using congrArg PeerData.z (hset _ hidx)
  · intro hidx
    simp only [handle_message, check_phase3_complete]
    rw [if_pos hidx]
    split
    · split <;> simpa using congrArg PeerData.share (hset _ hidx)
    · simpa using congrArg PeerData.share (hset _ hidx)
  · intro hver
    have hidx : idx < h.peers.length := by
      by_contra hge
      have : h.peers.getD idx default = default := by
        rw [List.getD_eq_getElem?_getD, List.getElem?_eq_none (by simpa using hge)]
        rfl
      rw [this] at hver
      exact Bool.noConfusion hver
    simp only [handle_message, check_phase1_complete]
    rw [if_pos hver]
    split
    · simpa using congrArg PeerData.w (hset _ hidx)
    · split
      · simpa using congrArg PeerData.w (hset _ hidx)
      · split <;> simpa using congrArg PeerData.w (hset _ hidx)

/-- C7: a HELLO is answered with a handshake exactly when the presented
public key equals the `public_key_t` of some entry of the loaded
(nonempty) manifest; a HELLO matching no entry changes nothing and
sends nothing. -/
theorem hello_requires_manifest_match
    (shake : List ℕ → ℕ → List ℕ) (rf : List ℕ → Option ℕ) (now : ℕ)
    (h : HostState) (idx : ℕ) (pk : List (List ℤ)) (addr : ℕ)
    (entries : List ManifestEntry)
    (hm : h.target_manifest = some entries) (hne : entries ≠ [])
    (hidx : idx < h.peers.length) :
    ((∃ e ∈ entries, e.public_key_t = some pk) →
      (handle_message shake rf now h idx (.hello pk) addr).2
        = [ProtoMsg.handshakeTo addr] ∧
      ((handle_message shake rf now h idx (.hello pk) addr).1.peers.getD idx
        default).pk_t = some pk) ∧
    ((∀ e ∈ entries, e.public_key_t ≠ some pk) →
      handle_message shake rf now h idx (.hello pk) addr = (h, [])) := by
  have hset : ∀ (d' : PeerData),
      (h.peers.set idx d').getD idx default = d' := by
    intro d'
    rw [List.getD_eq_getElem?_getD, List.getElem?_set_self (by simpa using hidx)]
    rfl
  simp only [handle_message]
  rw [if_pos hidx, hm]
  cases entries with
  | nil => exact absurd rfl hne
  | cons a as =>
    simp only [find_in_manifest]
    cases hf : (a :: as).find? (fun e => decide (e.public_key_t = some pk)) with
    | some e =>
      refine ⟨fun _ => ⟨rfl, ?_⟩, fun hnot => ?_⟩
      · simpa using congrArg PeerData.pk_t (hset _)
      · have hpe := List.find?_some hf
        rw [decide_eq_true_eq] at hpe
        exact absurd hpe (hnot e (List.mem_of_find?_eq_some hf))
    | none =>
      refine ⟨fun hex => ?_, fun _ => rfl⟩
      obtain ⟨e, he, hpk⟩ := hex
      have := List.find?_eq_none.mp hf e he
      exact absurd (by simpa using hpk) this

/-- C7 witness: a HELLO carrying the registered key `[[1]]` at a host
whose manifest holds exactly that key is answered with a handshake and
the key is recorded. -/
theorem hello_requires_manifest_match_witness :
    (handle_message (fun _ _ => []) (fun _ => none) 0 c7_host 0
      (.hello [[1]]) 5).2 = [ProtoMsg.handshakeTo 5] ∧
    ((handle_message (fun _ _ => []) (fun _ => none) 0 c7_host 0
      (.hello [[1]]) 5).1.peers.getD 0 default).pk_t = some [[1]] :=
  (hello_requires_manifest_match (fun _ _ => []) (fun _ => none) 0 c7_host 0
    [[1]] 5 [⟨some [[1]]⟩] rfl (by decide) (by decide)).1
    ⟨⟨some [[1]]⟩, by simp, rfl⟩

/-- The Bézout identity of `_egcd`: `x * a + y * b = g`. -/
theorem egcd_bezout (a b : ℤ) :
    (egcd a b).2.1 * a + (egcd a b).2.2 * b = (egcd a b).1 := by
  induction a, b using egcd.induct with
  | case1 b => rw [egcd]; simp
  | case2 a b ha ih =>
    rw [egcd, dif_neg ha]
    have hmod : b % a = b - a * (b / a) := Int.emod_def b a
    dsimp only
    linear_combination ih - (egcd (b % a) a).2.1 * hmod

/-- The first component of `_egcd` on nonnegative inputs is the gcd. -/
theorem egcd_gcd : ∀ (a b : ℤ), 0 ≤ a → 0 ≤ b →
    (egcd a b).1 = Int.gcd a b := by
  intro a b
  induction a, b using egcd.induct with
  | case1 b =>
    intro _ hb0
    rw [egcd]
    simp [Int.gcd, Int.natAbs_of_nonneg hb0]
  | case2 a b ha ih =>
    intro ha0 hb0
    rw [egcd, dif_neg ha]
    dsimp only
    rw [ih (Int.emod_nonneg b ha) ha0]
    have h1 : (b % a).natAbs = b.natAbs % a.natAbs := by
      conv_lhs => rw [← Int.natAbs_of_nonneg hb0, ← Int.natAbs_of_nonneg ha0,
        ← Int.ofNat_emod]
      exact Int.natAbs_ofNat _
    have hnat : Int.gcd (b % a) a = Int.gcd a b := by
      unfold Int.gcd
      rw [h1]
      exact (Nat.gcd_rec _ _).symm
    rw [hnat]

/-- The inverse cat map inverts the cat map up to canonical
representatives. -/
theorem arnoldTinv_arnoldT (s : ℤ) (x y : ℤ) :
    arnoldTinv s (arnoldT s (x, y)) = (x % s, y % s) := by
  unfold arnoldT arnoldTinv
  dsimp only
  refine Prod.ext ?_ ?_ <;> dsimp only
  · exact (Int.ModEq.sub ((emod_modEq _ _).mul_left 2) (emod_modEq _ _)).trans
      (modEq_of_eq (by ring))
  · exact (Int.ModEq.sub (emod_modEq _ _) (emod_modEq _ _)).trans
      (modEq_of_eq (by ring))

/-- Both cat maps only depend on the canonical representatives. -/
theorem arnoldT_emod (s x y : ℤ) :
    arnoldT s (x % s, y % s) = arnoldT s (x, y) := by
  unfold arnoldT
  refine Prod.ext ?_ ?_ <;> dsimp only
  · exact Int.ModEq.add (emod_modEq _ _) (emod_modEq _ _)
  · exact Int.ModEq.add (emod_modEq _ _) ((emod_modEq _ _).mul_left 2)

theorem arnoldTinv_emod (s x y : ℤ) :
    arnoldTinv s (x % s, y % s) = arnoldTinv s (x, y) := by
  unfold arnoldTinv
  refine Prod.ext ?_ ?_ <;> dsimp only
  · exact Int.ModEq.sub ((emod_modEq _ _).mul_left 2) (emod_modEq _ _)
  · exact Int.ModEq.sub (emod_modEq _ _) (emod_modEq _ _)

/-- A periodic image is unchanged by reducing only the spatial indices. -/
theorem cPeriodic_spatial {s : ℤ} {P : Img} (hP : cPeriodic s P)
    (x y ch : ℤ) : P (x % s) (y % s) ch = P x y ch := by
  have h1 := hP x y ch
  have h2 := hP (x % s) (y % s) ch
  rw [Int.emod_emod_of_dvd _ dvd_rfl, Int.emod_emod_of_dvd _ dvd_rfl] at h2
  rw [← h1, ← h2]

/-- A periodic image is unchanged by reducing only the channel index. -/
theorem cPeriodic_channel {s : ℤ} {P : Img} (hP : cPeriodic s P)
    (x y ch : ℤ) : P x y (ch % 3) = P x y ch := by
  have h1 := hP x y ch
  have h2 := hP x y (ch % 3)
  rw [Int.emod_emod_of_dvd _ dvd_rfl] at h2
  rw [← h1, ← h2]

/-- Scrambling preserves periodicity. -/
theorem cPeriodic_scrambleOnce {s : ℤ} {P : Img} (hP : cPeriodic s P) :
    cPeriodic s (scrambleOnce s P) := by
  intro x y ch
  unfold QSP.scrambleOnce
  rw [arnoldTinv_emod]
  exact cPeriodic_channel hP _ _ _

/-- Unscrambling preserves periodicity. -/
theorem cPeriodic_unscrambleOnce {s : ℤ} {P : Img} (hP : cPeriodic s P) :
    cPeriodic s (unscrambleOnce s P) := by
  intro x y ch
  unfold QSP.unscrambleOnce
  rw [arnoldT_emod]
  exact cPeriodic_channel hP _ _ _

/-- Iterated scrambling preserves periodicity. -/
theorem cPeriodic_scramble_iter {s : ℤ} {P : Img} (hP : cPeriodic s P) :
    ∀ n, cPeriodic s ((scrambleOnce s)^[n] P) := by
  intro n
  induction n with
  | zero => exact hP
  | succ n ih =>
    rw [Function.iterate_succ_apply']
    exact cPeriodic_scrambleOnce ih

/-- One unscrambling pass undoes one scrambling pass on a periodic
image. -/
theorem unscrambleOnce_scrambleOnce {s : ℤ} {P : Img}
    (hP : cPeriodic s P) :
    unscrambleOnce s (scrambleOnce s P) = P := by
  funext x y ch
  show scrambleOnce s P (arnoldT s (x, y)).1 (arnoldT s (x, y)).2 ch = P x y ch
  show P (arnoldTinv s ((arnoldT s (x, y)).1, (arnoldT s (x, y)).2)).1
    (arnoldTinv s ((arnoldT s (x, y)).1, (arnoldT s (x, y)).2)).2 ch = P x y ch
  rw [show ((arnoldT s (x, y)).1, (arnoldT s (x, y)).2) = arnoldT s (x, y)
    from rfl]
  rw [arnoldTinv_arnoldT]
  exact cPeriodic_spatial hP x y ch

/-- Ten unscrambling passes undo ten scrambling passes on a periodic
image. -/
theorem arnold_unscramble_scramble {s : ℤ} {P : Img}
    (hP : cPeriodic s P) :
    arnold_unscramble s (arnold_scramble s P) = P := by
  unfold arnold_unscramble arnold_scramble
  have key : ∀ n, (unscrambleOnce s)^[n] ((scrambleOnce s)^[n] P) = P := by
    intro n
    induction n with
    | zero => rfl
    | succ n ih =>
      rw [Function.iterate_succ_apply' (scrambleOnce s),
        Function.iterate_succ_apply (unscrambleOnce s),
        unscrambleOnce_scrambleOnce (cPeriodic_scramble_iter hP n), ih]
  exact key 10

/-- Scrambling does not create pixel values. -/
theorem scramble_le {s : ℤ} {P : Img} {B : ℕ}
    (hP : ∀ x y ch, P x y ch ≤ B) :
    ∀ x y ch, arnold_scramble s P x y ch ≤ B := by
  unfold arnold_scramble
  have key : ∀ n x y ch, (scrambleOnce s)^[n] P x y ch ≤ B := by
    intro n
    induction n with
    | zero => exact hP
    | succ n ih =>
      intro x y ch
      rw [Function.iterate_succ_apply']
      exact ih _ _ _
  exact key 10

/-- `getD` through a `map`, when the default is preserved. -/
theorem getD_map_eq {α β : Type} (f : α → β) (l : List α) (j : ℕ)
    (d : α) (d' : β) (hd : f d = d') :
    (l.map f).getD j d' = f (l.getD j d) := by
  rw [List.getD_eq_getElem?_getD, List.getD_eq_getElem?_getD,
    List.getElem?_map]
  cases l[j]? with
  | none => exact hd.symm
  | some a => rfl

/-- Reading back one flattened entry. -/
theorem flattenImg_getD (h w : ℕ) (P : Img) (j : ℕ) (hj : j < h * w * 3) :
    (flattenImg h w P).getD j 0 =
      P ((j / 3 / w : ℕ) : ℤ) ((j / 3 % w : ℕ) : ℤ) ((j % 3 : ℕ) : ℤ) := by
  unfold flattenImg
  rw [List.getD_eq_getElem _ _ (by simpa using hj)]
  rw [List.getElem_map, List.getElem_range]

/-- The row-major index arithmetic of a `s x s x 3` buffer. -/
theorem flat_index_decomp (s a b t : ℕ) (hb : b < s) (ht : t < 3) :
    ((a * s + b) * 3 + t) / 3 / s = a ∧
    ((a * s + b) * 3 + t) / 3 % s = b ∧
    ((a * s + b) * 3 + t) % 3 = t := by
  have hs : 0 < s := Nat.pos_of_ne_zero (by rintro rfl; exact Nat.not_lt_zero b hb)
  have h3 : ((a * s + b) * 3 + t) / 3 = a * s + b := by omega
  refine ⟨?_, ?_, by omega⟩
  · rw [h3, Nat.add_comm (a * s) b, Nat.mul_comm a s,
      Nat.add_mul_div_left _ _ hs, Nat.div_eq_of_lt hb, Nat.zero_add]
  · rw [h3, Nat.add_comm (a * s) b, Nat.add_mul_mod_self_right,
      Nat.mod_eq_of_lt hb]

/-- Reshaping the flattening of a periodic square image gives it back. -/
theorem reshape3_flattenImg (s : ℕ) (hs : 0 < s) (P : Img)
    (hP : cPeriodic (s : ℤ) P) :
    reshape3 (s : ℤ) (s : ℤ) 3 (flattenImg s s P) = P := by
  have hsz : ((s : ℤ)) ≠ 0 := by exact_mod_cast hs.ne'
  funext x y ch
  unfold reshape3
  have hxa : 0 ≤ x % (s : ℤ) := Int.emod_nonneg x hsz
  have hya : 0 ≤ y % (s : ℤ) := Int.emod_nonneg y hsz
  have hta : 0 ≤ ch % 3 := Int.emod_nonneg ch (by norm_num)
  have hxlt : x % (s : ℤ) < s := Int.emod_lt_of_pos x (by exact_mod_cast hs)
  have hylt : y % (s : ℤ) < s := Int.emod_lt_of_pos y (by exact_mod_cast hs)
  have htlt : ch % 3 < 3 := Int.emod_lt_of_pos ch (by norm_num)
  set na := (x % (s : ℤ)).toNat with hna
  set nb := (y % (s : ℤ)).toNat with hnb
  set nt := (ch % 3).toNat with hnt
  have hcastx : ((na : ℕ) : ℤ) = x % (s : ℤ) := Int.toNat_of_nonneg hxa
  have hcasty : ((nb : ℕ) : ℤ) = y % (s : ℤ) := Int.toNat_of_nonneg hya
  have hcastt : ((nt : ℕ) : ℤ) = ch % 3 := Int.toNat_of_nonneg hta
  have hnalt : na < s := by omega
  have hnblt : nb < s := by omega
  have hntlt : nt < 3 := by omega
  have hidx0 : (x % (s:ℤ) * s + y % (s:ℤ)) * 3 + ch % 3
      = (((na * s + nb) * 3 + nt : ℕ) : ℤ) := by
    push_cast [hcastx, hcasty, hcastt]
    ring
  rw [hidx0, Int.toNat_natCast]
  have hjlt : (na * s + nb) * 3 + nt < s * s * 3 := by
    have h1 : na * s + nb < s * s := by
      calc na * s + nb < na * s + s := by omega
        _ = (na + 1) * s := by ring
        _ ≤ s * s := Nat.mul_le_mul_right s hnalt
    omega
  rw [flattenImg_getD s s P _ hjlt]
  obtain ⟨e1, e2, e3⟩ := flat_index_decomp s na nb nt hnblt hntlt
  rw [e1, e2, e3, hcastx, hcasty, hcastt]
  exact hP x y ch

/-- The Bézout coefficient of `_modinv` inverts `a` mod `m`. -/
theorem weight_inv_mod (a m : ℤ) (hg : (egcd a m).1 = 1) :
    a * ((egcd a m).2.1 % m) ≡ 1 [ZMOD m] := by
  have hb := egcd_bezout a m
  rw [hg] at hb
  have h2 : a * (egcd a m).2.1 ≡ 1 [ZMOD m] := by
    refine Int.modEq_iff_dvd.mpr ⟨(egcd a m).2.2, by linarith⟩
  exact ((emod_modEq _ _).mul_left a).trans h2

/-- Chinese remaindering for three pairwise coprime moduli: the
weighted sum reduces mod `M` to the unique representative. -/
theorem crt3_emod (m1 m2 m3 : ℤ)
    (c12 : IsCoprime m1 m2) (c13 : IsCoprime m1 m3) (c23 : IsCoprime m2 m3)
    (w1 w2 w3 d1 d2 d3 x : ℤ)
    (hw1 : w1 ≡ 1 [ZMOD m1]) (hw12 : m2 ∣ w1) (hw13 : m3 ∣ w1)
    (hw2 : w2 ≡ 1 [ZMOD m2]) (hw21 : m1 ∣ w2) (hw23 : m3 ∣ w2)
    (hw3 : w3 ≡ 1 [ZMOD m3]) (hw31 : m1 ∣ w3) (hw32 : m2 ∣ w3)
    (hd1 : d1 ≡ x [ZMOD m1]) (hd2 : d2 ≡ x [ZMOD m2])
    (hd3 : d3 ≡ x [ZMOD m3])
    (hx0 : 0 ≤ x) (hxM : x < m1 * (m2 * m3)) :
    (d1 * w1 + (d2 * w2 + (d3 * w3 + 0))) % (m1 * (m2 * m3)) = x := by
  set S := d1 * w1 + (d2 * w2 + (d3 * w3 + 0)) with hSdef
  have hz : ∀ (a b n : ℤ), n ∣ b → a * b ≡ 0 [ZMOD n] := fun a b n h =>
    Int.modEq_zero_iff_dvd.mpr (h.mul_left a)
  have hS1 : S ≡ x [ZMOD m1] :=
    ((hd1.mul hw1).add ((hz d2 w2 m1 hw21).add ((hz d3 w3 m1 hw31).add
      (Int.ModEq.refl 0)))).trans (modEq_of_eq (by ring))
  have hS2 : S ≡ x [ZMOD m2] :=
    ((hz d1 w1 m2 hw12).add ((hd2.mul hw2).add ((hz d3 w3 m2 hw32).add
      (Int.ModEq.refl 0)))).trans (modEq_of_eq (by ring))
  have hS3 : S ≡ x [ZMOD m3] :=
    ((hz d1 w1 m3 hw13).add ((hz d2 w2 m3 hw23).add ((hd3.mul hw3).add
      (Int.ModEq.refl 0)))).trans (modEq_of_eq (by ring))
  have h23 : m2 * m3 ∣ x - S := c23.mul_dvd hS2.dvd hS3.dvd
  have hMd : m1 * (m2 * m3) ∣ x - S := (c12.mul_right c13).mul_dvd hS1.dvd h23
  have hSx : S ≡ x [ZMOD m1 * (m2 * m3)] := Int.modEq_iff_dvd.mpr hMd
  calc S % (m1 * (m2 * m3)) = x % (m1 * (m2 * m3)) := hSx
    _ = x := Int.emod_eq_of_lt hx0 hxM

/-- One successful step of the weight loop. -/
theorem crt_weights_cons (m M : ℤ) (ms : List ℤ) (ws : List ℤ)
    (hg : (egcd (M / m) m).1 = 1) (hrest : crt_weights ms M = .ok ws) :
    crt_weights (m :: ms) M
      = .ok (M / m * ((egcd (M / m) m).2.1 % m) :: ws) := by
  unfold crt_weights modinv
  rw [if_neg (by rw [hg]; exact fun hc => hc rfl)]
  rw [hrest]

/-- One successful step of the tamper-check loop. -/
theorem check_shares_cons (s : Share) (rest : List Share)
    (ys : List (List ℤ))
    (ht : ∀ v ∈ s.data, int64_cast v < s.modulus)
    (hrest : check_shares rest = .ok ys) :
    check_shares (s :: rest) = .ok (s.data.map int64_cast :: ys) := by
  simp only [check_shares]
  have hany : (s.data.map int64_cast).any
      (fun v => decide (s.modulus ≤ v)) = false := by
    rw [List.any_eq_false]
    intro v hv
    rw [List.mem_map] at hv
    obtain ⟨u, hu, rfl⟩ := hv
    simpa using not_le.mpr (ht u hu)
  rw [hany]
  simp only [Bool.false_eq_true, if_false]
  rw [hrest]

/-- The reconstruction of three shares whose (int64-cast) data agree
with a common bounded representative `x j` modulo three pairwise
coprime positive moduli: the threshold passes, the weights exist, the
tamper check passes, and every CRT-solved pixel is `x j mod 257 mod
256`; the result is the cropped inverse-scramble of that buffer. -/
theorem reconstruct_three (s1 s2 s3 : Share) (rest : List Share)
    (hh ww cc o1 o2 : ℕ) (m1 m2 m3 : ℤ)
    (hshape : s1.shape = (hh, ww, cc)) (horig : s1.original_shape = (o1, o2))
    (hm1 : s1.modulus = m1) (hm2 : s2.modulus = m2) (hm3 : s3.modulus = m3)
    (h1 : 0 < m1) (h2 : 0 < m2) (h3 : 0 < m3)
    (c12 : Int.gcd m1 m2 = 1) (c13 : Int.gcd m1 m3 = 1)
    (c23 : Int.gcd m2 m3 = 1)
    (x : ℕ → ℤ) (hx0 : ∀ j, 0 ≤ x j) (hxM : ∀ j, x j < m1 * (m2 * m3))
    (hd1 : ∀ j, int64_cast (s1.data.getD j 0) ≡ x j [ZMOD m1])
    (hd2 : ∀ j, int64_cast (s2.data.getD j 0) ≡ x j [ZMOD m2])
    (hd3 : ∀ j, int64_cast (s3.data.getD j 0) ≡ x j [ZMOD m3])
    (ht1 : ∀ v ∈ s1.data, int64_cast v < m1)
    (ht2 : ∀ v ∈ s2.data, int64_cast v < m2)
    (ht3 : ∀ v ∈ s3.data, int64_cast v < m3) :
    reconstruct_from_memory (s1 :: s2 :: s3 :: rest) =
      .ok (flattenImg o1 o2 (arnold_unscramble (hh : ℤ)
        (reshape3 (hh : ℤ) (ww : ℤ) (cc : ℤ)
          ((List.range (hh * ww * cc)).map fun j =>
            (x j % (LARGE_PRIME_Q : ℤ)).toNat % 256)))) := by
  have hc12 : IsCoprime m1 m2 := Int.isCoprime_iff_gcd_eq_one.mpr c12
  have hc13 : IsCoprime m1 m3 := Int.isCoprime_iff_gcd_eq_one.mpr c13
  have hc23 : IsCoprime m2 m3 := Int.isCoprime_iff_gcd_eq_one.mpr c23
  have hMprod : List.prod [m1, m2, m3] = m1 * (m2 * (m3 * 1)) := rfl
  set M := m1 * (m2 * (m3 * 1)) with hMdef
  have e1 : M / m1 = m2 * (m3 * 1) :=
    Int.mul_ediv_cancel_left _ (ne_of_gt h1)
  have e2 : M / m2 = m1 * (m3 * 1) := by
    rw [show M = m2 * (m1 * (m3 * 1)) by rw [hMdef]; ring]
    exact Int.mul_ediv_cancel_left _ (ne_of_gt h2)
  have e3 : M / m3 = m1 * (m2 * 1) := by
    rw [show M = m3 * (m1 * (m2 * 1)) by rw [hMdef]; ring]
    exact Int.mul_ediv_cancel_left _ (ne_of_gt h3)
  have hg1 : (egcd (M / m1) m1).1 = 1 := by
    rw [e1, egcd_gcd _ _ (by positivity) h1.le, Nat.cast_eq_one,
      ← Int.isCoprime_iff_gcd_eq_one]
    exact hc12.symm.mul_left (hc13.symm.mul_left isCoprime_one_left)
  have hg2 : (egcd (M / m2) m2).1 = 1 := by
    rw [e2, egcd_gcd _ _ (by positivity) h2.le, Nat.cast_eq_one,
      ← Int.isCoprime_iff_gcd_eq_one]
    exact hc12.mul_left (hc23.symm.mul_left isCoprime_one_left)
  have hg3 : (egcd (M / m3) m3).1 = 1 := by
    rw [e3, egcd_gcd _ _ (by positivity) h3.le, Nat.cast_eq_one,
      ← Int.isCoprime_iff_gcd_eq_one]
    exact hc13.mul_left (hc23.mul_left isCoprime_one_left)
  set w1 := M / m1 * ((egcd (M / m1) m1).2.1 % m1) with hw1def
  set w2 := M / m2 * ((egcd (M / m2) m2).2.1 % m2) with hw2def
  set w3 := M / m3 * ((egcd (M / m3) m3).2.1 % m3) with hw3def
  have hcw : crt_weights [m1, m2, m3] M = .ok [w1, w2, w3] :=
    crt_weights_cons m1 M [m2, m3] [w2, w3] hg1
      (crt_weights_cons m2 M [m3] [w3] hg2
        (crt_weights_cons m3 M [] [] hg3 rfl))
  have hcs : check_shares [s1, s2, s3]
      = .ok [s1.data.map int64_cast, s2.data.map int64_cast,
             s3.data.map int64_cast] :=
    check_shares_cons s1 _ _ (by rw [hm1]; exact ht1)
      (check_shares_cons s2 _ _ (by rw [hm2]; exact ht2)
        (check_shares_cons s3 _ _ (by rw [hm3]; exact ht3) rfl))
  have hw1m : w1 ≡ 1 [ZMOD m1] := weight_inv_mod (M / m1) m1 hg1
  have hw2m : w2 ≡ 1 [ZMOD m2] := weight_inv_mod (M / m2) m2 hg2
  have hw3m : w3 ≡ 1 [ZMOD m3] := weight_inv_mod (M / m3) m3 hg3
  have hw12 : m2 ∣ w1 :=
    ⟨m3 * 1 * ((egcd (M / m1) m1).2.1 % m1), by rw [hw1def, e1]; ring⟩
  have hw13 : m3 ∣ w1 :=
    ⟨m2 * 1 * ((egcd (M / m1) m1).2.1 % m1), by rw [hw1def, e1]; ring⟩
  have hw21 : m1 ∣ w2 :=
    ⟨m3 * 1 * ((egcd (M / m2) m2).2.1 % m2), by rw [hw2def, e2]; ring⟩
  have hw23 : m3 ∣ w2 :=
    ⟨m1 * 1 * ((egcd (M / m2) m2).2.1 % m2), by rw [hw2def, e2]; ring⟩
  have hw31 : m1 ∣ w3 :=
    ⟨m2 * 1 * ((egcd (M / m3) m3).2.1 % m3), by rw [hw3def, e3]; ring⟩
  have hw32 : m2 ∣ w3 :=
    ⟨m1 * 1 * ((egcd (M / m3) m3).2.1 % m3), by rw [hw3def, e3]; ring⟩
  have hsum : ∀ j : ℕ,
      (((([s1.data.map int64_cast, s2.data.map int64_cast,
          s3.data.map int64_cast].zip [w1, w2, w3]).map
        fun p => p.1.getD j 0 * p.2).sum % M % (LARGE_PRIME_Q : ℤ)).toNat
        % 256)
      = (x j % (LARGE_PRIME_Q : ℤ)).toNat % 256 := by
    intro j
    have hz : int64_cast 0 = 0 := by norm_num [int64_cast]
    have hgd1 : (s1.data.map int64_cast).getD j 0
        = int64_cast (s1.data.getD j 0) := getD_map_eq _ _ _ _ _ hz
    have hgd2 : (s2.data.map int64_cast).getD j 0
        = int64_cast (s2.data.getD j 0) := getD_map_eq _ _ _ _ _ hz
    have hgd3 : (s3.data.map int64_cast).getD j 0
        = int64_cast (s3.data.getD j 0) := getD_map_eq _ _ _ _ _ hz
    have hMM : M = m1 * (m2 * m3) := by rw [hMdef]; ring
    have : (([s1.data.map int64_cast, s2.data.map int64_cast,
          s3.data.map int64_cast].zip [w1, w2, w3]).map
        fun p => p.1.getD j 0 * p.2).sum % M = x j := by
      show ((s1.data.map int64_cast).getD j 0 * w1 +
        ((s2.data.map int64_cast).getD j 0 * w2 +
          ((s3.data.map int64_cast).getD j 0 * w3 + 0))) % M = x j
      rw [hgd1, hgd2, hgd3, hMM]
      exact crt3_emod m1 m2 m3 hc12 hc13 hc23 w1 w2 w3 _ _ _ (x j)
        hw1m hw12 hw13 hw2m hw21 hw23 hw3m hw31 hw32
        (hd1 j) (hd2 j) (hd3 j) (hx0 j) (hxM j)
    rw [this]
  unfold reconstruct_from_memory
  rw [if_neg (by simp only [List.length_cons, T_THRESHOLD]; omega)]
  simp only [T_THRESHOLD, List.take_succ_cons, List.take_zero,
    List.headD_cons, List.map_cons, List.map_nil, hshape, horig, hm1, hm2,
    hm3, hMprod]
  rw [hcw]
  dsimp only
  rw [hcs]
  dsimp only
  rw [List.map_congr_left fun j _ => hsum j]

/-- `astype(int64)` is the identity inside the 64-bit range. -/
theorem int64_cast_id (v : ℤ) (hlo : -(2 ^ 63) ≤ v) (hhi : v < 2 ^ 63) :
    int64_cast v = v := by
  unfold int64_cast
  omega

theorem flattenImg_length (h w : ℕ) (P : Img) :
    (flattenImg h w P).length = h * w * 3 := by
  simp [flattenImg]

/-- Rebuilding a list from its `getD` reads. -/
theorem map_range_getD {α : Type} (l : List α) (d : α) :
    (List.range l.length).map (fun j => l.getD j d) = l := by
  apply List.ext_getElem
  · simp
  · intro n h1 h2
    simp only [List.getElem_map, List.getElem_range]
    exact List.getD_eq_getElem l d h2

/-- C2 (amended): with the hard-coded threshold 3, any share list whose
first three entries are split shares of the same periodic padded square
image under pairwise coprime moduli `>= 257` reconstructs the original
pixels exactly (whatever the claimed manifest threshold `t` was). -/
theorem split_reconstruct_exact
    (s : ℕ) (hs : 0 < s) (o1 o2 : ℕ) (P : Img)
    (hP : cPeriodic (s : ℤ) P) (hPv : ∀ x y ch, P x y ch ≤ 255)
    (m1 m2 m3 : ℤ)
    (hm1 : 257 ≤ m1) (hm2 : 257 ≤ m2) (hm3 : 257 ≤ m3)
    (c12 : Int.gcd m1 m2 = 1) (c13 : Int.gcd m1 m3 = 1)
    (c23 : Int.gcd m2 m3 = 1) (rest : List Share) :
    reconstruct_from_memory
      (split_share (s : ℤ) s s (o1, o2) P m1 ::
        split_share (s : ℤ) s s (o1, o2) P m2 ::
        split_share (s : ℤ) s s (o1, o2) P m3 :: rest)
      = .ok (flattenImg o1 o2 P) := by
  set Q0 := arnold_scramble (s : ℤ) P with hQ0
  have hQv : ∀ x y ch, Q0 x y ch ≤ 255 := scramble_le hPv
  have hQper : cPeriodic (s : ℤ) Q0 := cPeriodic_scramble_iter hP 10
  set x : ℕ → ℤ := fun j => (((flattenImg s s Q0).getD j 0 : ℕ) : ℤ) with hxdef
  have hx255 : ∀ j, x j ≤ 255 := by
    intro j
    show ((((flattenImg s s Q0).getD j 0 : ℕ)) : ℤ) ≤ 255
    by_cases hj : j < s * s * 3
    · rw [flattenImg_getD s s Q0 j hj]
      exact_mod_cast hQv _ _ _
    · rw [List.getD_eq_default _ _
        (by rw [flattenImg_length]; exact Nat.le_of_not_lt hj)]
      norm_num
  have hx0 : ∀ j, 0 ≤ x j := fun j => Int.natCast_nonneg _
  have hxm : ∀ (m : ℤ), 257 ≤ m → ∀ j, x j % m = x j := fun m hm j =>
    Int.emod_eq_of_lt (hx0 j) (by linarith [hx255 j])
  have hxM : ∀ j, x j < m1 * (m2 * m3) := by
    intro j
    have h23 : (1 : ℤ) * 1 ≤ m2 * m3 :=
      mul_le_mul (by linarith) (by linarith) one_pos.le (by linarith)
    have : m1 * 1 ≤ m1 * (m2 * m3) :=
      mul_le_mul_of_nonneg_left (by linarith) (by linarith)
    linarith [hx255 j]
  have hdata : ∀ (m : ℤ), 257 ≤ m → ∀ j,
      ((split_share (s : ℤ) s s (o1, o2) P m).data.getD j 0) = x j % m := by
    intro m hm j
    show ((flattenImg s s Q0).map (fun p : ℕ => (p : ℤ) % m)).getD j 0
      = x j % m
    rw [getD_map_eq (fun p : ℕ => (p : ℤ) % m) _ j 0 0 (by simp)]
  have hd : ∀ (m : ℤ), 257 ≤ m → ∀ j,
      int64_cast ((split_share (s : ℤ) s s (o1, o2) P m).data.getD j 0)
        ≡ x j [ZMOD m] := by
    intro m hm j
    rw [hdata m hm j, hxm m hm j,
      int64_cast_id _ (by linarith [hx0 j]) (by linarith [hx255 j])]
  have ht : ∀ (m : ℤ), 257 ≤ m →
      ∀ v ∈ (split_share (s : ℤ) s s (o1, o2) P m).data,
        int64_cast v < m := by
    intro m hm v hv
    obtain ⟨p, hp, hpv⟩ := List.mem_map.mp hv
    have hple : p ≤ 255 := by
      obtain ⟨j, _, hjp⟩ := List.mem_map.mp hp
      rw [← hjp]
      exact hQv _ _ _
    have hpm : (p : ℤ) % m = p :=
      Int.emod_eq_of_lt (Int.natCast_nonneg _) (by exact_mod_cast by omega)
    rw [← hpv, hpm, int64_cast_id _
      (le_trans (by norm_num) (Int.natCast_nonneg p))
      (by exact_mod_cast by omega)]
    exact_mod_cast by omega
  have hrec := reconstruct_three
    (split_share (s : ℤ) s s (o1, o2) P m1)
    (split_share (s : ℤ) s s (o1, o2) P m2)
    (split_share (s : ℤ) s s (o1, o2) P m3) rest
    s s 3 o1 o2 m1 m2 m3 rfl rfl rfl rfl rfl
    (by linarith) (by linarith) (by linarith) c12 c13 c23
    x hx0 hxM (hd m1 hm1) (hd m2 hm2) (hd m3 hm3)
    (ht m1 hm1) (ht m2 hm2) (ht m3 hm3)
  rw [hrec]
  have hpx : ∀ j, (x j % (LARGE_PRIME_Q : ℤ)).toNat % 256
      = (flattenImg s s Q0).getD j 0 := by
    intro j
    have h257 : (257 : ℤ) ≤ (LARGE_PRIME_Q : ℤ) := by norm_num [LARGE_PRIME_Q]
    rw [hxm _ h257 j]
    show (((((flattenImg s s Q0).getD j 0 : ℕ)) : ℤ)).toNat % 256
      = (flattenImg s s Q0).getD j 0
    rw [Int.toNat_natCast]
    have h255 : (flattenImg s s Q0).getD j 0 ≤ 255 := by
      have h : ((((flattenImg s s Q0).getD j 0 : ℕ)) : ℤ) ≤ 255 := hx255 j
      exact_mod_cast h
    omega
  rw [List.map_congr_left fun j _ => hpx j]
  rw [show (List.range (s * s * 3)).map (fun j => (flattenImg s s Q0).getD j 0)
    = flattenImg s s Q0 by
      conv_lhs => rw [show s * s * 3 = (flattenImg s s Q0).length from
        (flattenImg_length s s Q0).symm]
      exact map_range_getD _ _]
  rw [show ((3 : ℕ) : ℤ) = (3 : ℤ) from rfl]
  rw [reshape3_flattenImg s hs Q0 hQper]
  rw [hQ0, arnold_unscramble_scramble hP]

/-- C2 counterexample: with a manifest threshold `t = 2` (moduli
`{257, 263}`), two valid split shares of a 1x1 image do NOT reconstruct:
`reconstruct_from_memory` compares against the hard-coded
`Config.T_THRESHOLD = 3` and raises "Insufficient shares". -/
theorem two_shares_insufficient :
    reconstruct_from_memory
      [split_share 1 1 1 (1, 1) (fun _ _ _ => 7) 257,
       split_share 1 1 1 (1, 1) (fun _ _ _ => 7) 263]
      = .error "Insufficient shares. Need 3" := rfl

/-- C2 witness: three shares of the constant 1x1 image under moduli
`{257, 263, 269}` reconstruct the exact original bytes `[7, 7, 7]`. -/
theorem split_reconstruct_exact_witness :
    reconstruct_from_memory
      [split_share 1 1 1 (1, 1) (fun _ _ _ => 7) 257,
       split_share 1 1 1 (1, 1) (fun _ _ _ => 7) 263,
       split_share 1 1 1 (1, 1) (fun _ _ _ => 7) 269]
      = .ok (flattenImg 1 1 (fun _ _ _ => 7)) ∧
    flattenImg 1 1 (fun _ _ _ => 7) = [7, 7, 7] := by
  constructor
  · have h := split_reconstruct_exact 1 one_pos 1 1 (fun _ _ _ => 7)
      (fun _ _ _ => rfl) (fun _ _ _ => by norm_num)
      257 263 269 (by norm_num) (by norm_num) (by norm_num)
      (by decide) (by decide) (by decide) []
    exact_mod_cast h
  · rfl

/-- C10: the tamper validation only rejects coordinates `>= modulus`:
the share list `c10_shares`, whose first share holds the negative
coordinate `-5`, passes validation, and `reconstruct_from_memory`
returns the reconstruction `[252, 0, 0]` computed from the negative
value (`18181974 mod 257 mod 256 = 252`). -/
theorem tamper_check_ignores_negative :
    (c10_shares.getD 0 default).data = [-5, 0, 0] ∧
    ((-5 : ℤ) < 0) ∧
    reconstruct_from_memory c10_shares = .ok [252, 0, 0] := by
  refine ⟨rfl, by norm_num, ?_⟩
  have hd1 : ∀ j : ℕ, int64_cast (([(-5 : ℤ), 0, 0]).getD j 0)
      ≡ (if j = 0 then (18181974 : ℤ) else 0) [ZMOD 257] := by
    intro j
    rcases j with _ | _ | _ | n
    · decide
    · decide
    · decide
    · show int64_cast 0 ≡ 0 [ZMOD 257]
      decide
  have hd2 : ∀ j : ℕ, int64_cast (([(258 : ℤ), 0, 0]).getD j 0)
      ≡ (if j = 0 then (18181974 : ℤ) else 0) [ZMOD 263] := by
    intro j
    rcases j with _ | _ | _ | n
    · decide
    · decide
    · decide
    · show int64_cast 0 ≡ 0 [ZMOD 263]
      decide
  have hd3 : ∀ j : ℕ, int64_cast (([(264 : ℤ), 0, 0]).getD j 0)
      ≡ (if j = 0 then (18181974 : ℤ) else 0) [ZMOD 269] := by
    intro j
    rcases j with _ | _ | _ | n
    · decide
    · decide
    · decide
    · show int64_cast 0 ≡ 0 [ZMOD 269]
      decide
  have h := reconstruct_three
    ⟨257, [-5, 0, 0], (1, 1, 3), (1, 1)⟩
    ⟨263, [258, 0, 0], (1, 1, 3), (1, 1)⟩
    ⟨269, [264, 0, 0], (1, 1, 3), (1, 1)⟩ []
    1 1 3 1 1 257 263 269 rfl rfl rfl rfl rfl
    (by norm_num) (by norm_num) (by norm_num)
    (by decide) (by decide) (by decide)
    (fun j => if j = 0 then (18181974 : ℤ) else 0)
    (by intro j; dsimp only; split <;> norm_num)
    (by intro j; dsimp only; split <;> norm_num)
    hd1 hd2 hd3
    (by intro v hv; fin_cases hv <;> decide)
    (by intro v hv; fin_cases hv <;> decide)
    (by intro v hv; fin_cases hv <;> decide)
  rw [show reconstruct_from_memory c10_shares
    = reconstruct_from_memory
      [⟨257, [-5, 0, 0], (1, 1, 3), (1, 1)⟩,
       ⟨263, [258, 0, 0], (1, 1, 3), (1, 1)⟩,
       ⟨269, [264, 0, 0], (1, 1, 3), (1, 1)⟩] from rfl, h]
  rw [Except.ok.injEq]
  decide

end QSP

